import Mathlib

/-!
# Verification of the ghcr container-repository cleanup action

A shallow embedding, in Lean 4, of the core of the cleanup action:
the data model (`models.ts`), the tree primitives (`tree.ts`: `linkVersions`,
`visit`), the relationship-resolver passes and artifact classification
(`github-package.ts`: `discoverAndLinkManifestChildren`,
`discoverAndLinkReferrers`, `discoverAndLinkReferrerTags`, `getArtifactType`,
`scanRoots`, `getTags`, `deleteVersion`, `deleteTag`), and the selection
engine (`main.ts` / `CleanupAction.run`, `getClosure`, `VersionSet`).

TypeScript objects linked by reference are embedded as records stored in a
list keyed by `name` (the content digest); object identity becomes name
equality.  The key-to-version `Map` is embedded as an association list from
keys to names.  Recursive graph traversals of the source, which have no
cycle detection, are embedded with an explicit fuel parameter; exhausting
the fuel models divergence of the source recursion.  JavaScript regular
expressions supplied in the configuration are embedded as abstract
predicates `String → Bool`; `Date.parse` is embedded as an abstract
function `String → Option Int` (with `none` for `NaN`).
-/

namespace Cleanup

/-- Embeds `PackageVersionType` from `models.ts`. -/
inductive PackageVersionType where
  | multiArch
  | singleArch
  | attestation
  | unknown
deriving DecidableEq, Repr

/-- Embeds `ManifestReference` from `models.ts`: `{digest, mediaType}`. -/
structure ManifestReference where
  digest : String
  mediaType : String
deriving DecidableEq, Repr

/-- Embeds `Manifest` from `models.ts`: `mediaType` plus optional `manifests`,
`layers` and `subject`.  An absent optional field is `none`; a present but
empty list is `some []` (JavaScript distinguishes the two and `if (m.layers)`
is true for an empty array). -/
structure Manifest where
  mediaType : String
  manifests : Option (List ManifestReference) := none
  layers : Option (List ManifestReference) := none
  subject : Option ManifestReference := none
deriving DecidableEq, Repr

/-- Embeds `PackageVersionExt` from `models.ts`, flattened: the ingested record
(`id`, `name` = digest, `updated_at`, `metadata.container.tags`, `manifest`)
together with the mutable node fields (`parent`, `children`, `type`).
Parent and children hold names of other versions (object references in the
source). -/
structure PackageVersion where
  id : Nat
  name : String
  updated_at : String
  tags : List String
  manifest : Manifest
  parent : Option String := none
  children : List String := []
  vtype : PackageVersionType := .unknown
deriving DecidableEq, Repr

/-- Embeds `is_attestation` getter of `PackageVersionExtModel`. -/
def PackageVersion.is_attestation (v : PackageVersion) : Bool :=
  v.vtype == .attestation

/-- A key of the `versions` map of `GithubPackageRepo`: a string (digest or
tag) or a numeric id. -/
inductive VKey where
  | str (s : String)
  | num (n : Nat)
deriving DecidableEq, Repr

/-- The store of version records, playing the role of the set of live
version objects (`uniqueVersions`). -/
abbrev Store := List PackageVersion

/-- Look up a version object by name. -/
def findV (st : Store) (name : String) : Option PackageVersion :=
  st.find? (fun v => v.name == name)

/-- Update, in place, every version object with the given name. -/
def updateV (st : Store) (name : String) (f : PackageVersion → PackageVersion) :
    Store :=
  st.map (fun v => if v.name == name then f v else v)

/-- The association list embedding of a JavaScript `Map`: `set` replaces the
value of an existing key in place, otherwise appends. -/
def mapSet (m : List (VKey × String)) (k : VKey) (v : String) :
    List (VKey × String) :=
  if m.any (fun e => e.1 == k) then
    m.map (fun e => if e.1 == k then (k, v) else e)
  else m ++ [(k, v)]

/-- Embeds `Map.get`. -/
def mapGet (m : List (VKey × String)) (k : VKey) : Option String :=
  (m.find? (fun e => e.1 == k)).map (·.2)

/-- Embeds `Map.delete`. -/
def mapDelete (m : List (VKey × String)) (k : VKey) : List (VKey × String) :=
  m.filter (fun e => !(e.1 == k))

/-- The `Set<string>` embedding: `add` appends if absent. -/
def setAdd (s : List String) (t : String) : List String :=
  if t ∈ s then s else s ++ [t]

/-- Embeds `Set.delete`. -/
def setDelete (s : List String) (t : String) : List String :=
  s.filter (fun x => !(x == t))

/-- The in-memory state of `GithubPackageRepo`: the live version objects
(`uniqueVersions`), the key index (`versions` map, holding names in place of
object references), the `tags` and `digests` sets, and the `roots` set
(names, in insertion order). -/
structure RepoState where
  store : Store
  index : List (VKey × String)
  tags : List String
  digests : List String
  roots : List String
deriving Repr, Inhabited

/-- Embeds `GithubPackageRepo.getVersion`: resolve a key through the `versions` map
to the live object. -/
def getVersion (st : RepoState) (k : VKey) : Option PackageVersion :=
  (mapGet st.index k).bind (fun name => findV st.store name)

/-- Errors thrown by the embedded operations.  `fuel` stands for divergence
of a source recursion that the fuel bound cut off. -/
inductive RunErr where
  | selfLink
  | conflictingParent
  | notFound (msg : String)
  | fuel
deriving DecidableEq, Repr

/-- Embeds `linkVersions` from `tree.ts`.  Throws on self-link, returns unchanged
when the child already has this parent, throws when the child has a
different parent, and otherwise sets `child.parent` and appends the child to
`parent.children` unless already present. -/
def linkVersions (st : Store) (parent child : String) :
    Except RunErr Store :=
  if parent = child then .error .selfLink
  else
    match findV st child with
    | none => .ok st
    | some cv =>
      match cv.parent with
      | some q => if q = parent then .ok st else .error .conflictingParent
      | none =>
        let st1 := updateV st child (fun v => { v with parent := some parent })
        let st2 := updateV st1 parent (fun v =>
          if child ∈ v.children then v
          else { v with children := v.children ++ [child] })
        .ok st2

/-- Embeds `visit` from `tree.ts`, fueled: pre-order traversal collecting the names
of the visited nodes (the node itself, then the traversal of each child in
order).  The source recursion has no visited-node tracking; fuel exhaustion
models its divergence. -/
def visitFuel (st : Store) : Nat → String → Except RunErr (List String)
  | 0, _ => .error .fuel
  | n + 1, key =>
    match findV st key with
    | none => .ok []
    | some v =>
      (v.children.foldlM
        (fun acc c => do
          let r ← visitFuel st n c
          pure (acc ++ r))
        []).map (fun r => key :: r)

/-- Embeds `CleanupAction.getClosure` (single-key case), fueled: the version for
the key followed by the closures of its children, in order; a key with no
version contributes nothing. -/
def getClosureFuel (st : RepoState) : Nat → String → Except RunErr (List String)
  | 0, _ => .error .fuel
  | n + 1, key =>
    match getVersion st (.str key) with
    | none => .ok []
    | some v =>
      (v.children.foldlM
        (fun acc c => do
          let r ← getClosureFuel st n c
          pure (acc ++ r))
        []).map (fun r => v.name :: r)

/-- Embeds `RegExp(/^sha256-[a-f0-9]{64}$/).exec(t)` as a Boolean test: the literal
prefix `sha256-` followed by exactly 64 lower-case hexadecimal characters. -/
def isSha256ReferrerTag (t : String) : Bool :=
  t.startsWith "sha256-" && t.length == 71 &&
    (t.drop 7).toList.all (fun c => c.isDigit || ('a' ≤ c && c ≤ 'f'))

/-- The media type tested by the attestation-layer check. -/
def inTotoType : String := "application/vnd.in-toto+json"

/-- Embeds `getArtifactType` from `github-package.ts`.  Note the source structure: a
present `layers` field (even an empty list) takes the first branch, which
decides between `attestation` (every layer is in-toto, vacuously true when
empty) and `single-arch image`; the `subject` and referrer-tag checks run
only when `layers` is absent. -/
def getArtifactType (v : PackageVersion) : PackageVersionType :=
  match v.manifest.layers with
  | some layers =>
    if layers.all (fun l => l.mediaType == inTotoType) then .attestation
    else .singleArch
  | none =>
    if v.manifest.subject.isSome then .attestation
    else if v.tags.any isSha256ReferrerTag then .attestation
    else
      match v.manifest.manifests with
      | some ms => if ms.length > 0 then .multiArch else .unknown
      | none => .unknown

/-- Embeds `getManifestChildren`: the digests listed under `manifest.manifests`,
or `[]` when the field is absent. -/
def getManifestChildren (v : PackageVersion) : List String :=
  match v.manifest.manifests with
  | some ms => ms.map (·.digest)
  | none => []

/-- JavaScript `t.replace('-', ':')` with a string pattern: replace the
first occurrence of `-`, leave the rest unchanged. -/
def replaceFirstDash : List Char → List Char
  | [] => []
  | c :: cs => if c = '-' then ':' :: cs else c :: replaceFirstDash cs

/-- Embeds `t.replace('-', ':')` on strings. -/
def replaceFirst (t : String) : String :=
  ⟨replaceFirstDash t.toList⟩

/-- The `(parent, child)` link requests issued by
`discoverAndLinkReferrerTags` for one working-set version `v0`: each tag is
transformed by `replaceFirst`, looked up, and kept when it resolves to a
defined version different from `v0` that is in the working set. -/
def referrerTagTargets (idx : List (VKey × String)) (st : Store)
    (ws : List String) (v0 : PackageVersion) : List String :=
  (((v0.tags.map (fun t =>
      (mapGet idx (.str (replaceFirst t))).bind (fun n => findV st n))).filterMap
        id).filter
    (fun v1 => !(v1.name == v0.name) && ws.contains v1.name)).map (·.name)

/-- The full, flattened list of `(parent, child)` pairs (by name) that
`discoverAndLinkReferrerTags` links, in order.  Lookups use the state of the
store at entry to the pass — the pass computes all pairs with `map` before
linking (`tags` and `manifest`, the only fields the pair computation reads,
are not mutated by linking). -/
def referrerTagPairs (idx : List (VKey × String)) (st : Store)
    (ws : List String) : List (String × String) :=
  (ws.filterMap (fun n => findV st n)).foldr
    (fun v0 acc => ((referrerTagTargets idx st ws v0).map (fun u => (u, v0.name))) ++ acc)
    []

/-- Run a list of link requests in order, collecting the child names
returned by `linkVersions` (the versions a pass reports as linked). -/
def linkAll (st : Store) (pairs : List (String × String)) :
    Except RunErr (Store × List String) :=
  pairs.foldlM
    (fun (acc : Store × List String) pc => do
      let st' ← linkVersions acc.1 pc.1 pc.2
      pure (st', acc.2 ++ [pc.2]))
    (st, [])

/-- Embeds `discoverAndLinkManifestChildren`: for each working-set version in
order, each manifest-child digest that resolves through the index is linked
as a child of that version. -/
def manifestChildrenPairs (idx : List (VKey × String)) (st : Store)
    (ws : List String) : List (String × String) :=
  (ws.filterMap (fun n => findV st n)).foldr
    (fun v0 acc =>
      (((getManifestChildren v0).filterMap (fun d =>
          (mapGet idx (.str d)).bind (fun n => findV st n))).map
        (fun u => (v0.name, u.name))) ++ acc)
    []

/-- Embeds `discoverAndLinkReferrers`: for each working-set version `v0` whose
manifest has a `subject` digest resolving to a version `u`, `v0` is linked
as a child of `u`; the pass reports `v0`. -/
def referrerPairs (idx : List (VKey × String)) (st : Store)
    (ws : List String) : List (String × String) :=
  (ws.filterMap (fun n => findV st n)).foldr
    (fun v0 acc =>
      match v0.manifest.subject with
      | none => acc
      | some ref =>
        match (mapGet idx (.str ref.digest)).bind (fun n => findV st n) with
        | none => acc
        | some u => (u.name, v0.name) :: acc)
    []

/-- The `visit` call of `scanRoots` that stores `getArtifactType` into each
node reachable from a root, pre-order, fueled like `visit`. -/
def setTypesFuel : Nat → Store → String → Except RunErr Store
  | 0, _, _ => .error .fuel
  | n + 1, st, key =>
    match findV st key with
    | none => .ok st
    | some v =>
      v.children.foldlM (fun s c => setTypesFuel n s c)
        (updateV st key (fun u => { u with vtype := getArtifactType u }))

/-- The `for (const v of roots) visit(v, …)` loop of `scanRoots`. -/
def setTypesRoots (fuel : Nat) (st : Store) :
    List String → Except RunErr Store
  | [] => .ok st
  | r :: rs => do
    let st1 ← setTypesFuel fuel st r
    setTypesRoots fuel st1 rs

/-- Embeds `scanRoots` from `github-package.ts`, operating on a repo state: reset
every node, run the three linking passes in order (each pass iterating the
roots that remain after the previous one), remove linked versions from the
root set, then classify the type of every node reachable from a remaining
root.  Returns the state with the rebuilt store and root list. -/
def scanRoots (fuel : Nat) (st : RepoState) : Except RunErr RepoState := do
  let store1 := st.store.map
    (fun v => { v with children := [], parent := none, vtype := .unknown })
  let ws1 := store1.map (·.name)
  let (store2, linked1) ← linkAll store1 (manifestChildrenPairs st.index store1 ws1)
  let ws2 := ws1.filter (fun n => !(linked1.contains n))
  let (store3, linked2) ← linkAll store2 (referrerPairs st.index store2 ws2)
  let ws3 := ws2.filter (fun n => !(linked2.contains n))
  let (store4, linked3) ← linkAll store3 (referrerTagPairs st.index store3 ws3)
  let ws4 := ws3.filter (fun n => !(linked3.contains n))
  let store5 ← setTypesRoots fuel store4 ws4
  pure { st with store := store5, roots := ws4 }

/-- Embeds `GithubPackageRepo.addVersion`: index the version under its name, id and
every tag; record the digest and the tags; add the object to the set of
unique versions (embedded as replace-or-append by name in the store). -/
def addVersionState (st : RepoState) (v : PackageVersion) : RepoState :=
  let idx1 := mapSet st.index (.str v.name) v.name
  let idx2 := mapSet idx1 (.num v.id) v.name
  let digests1 := setAdd st.digests v.name
  let idx3 := v.tags.foldl (fun m t => mapSet m (.str t) v.name) idx2
  let tags1 := v.tags.foldl (fun s t => setAdd s t) st.tags
  let store1 :=
    if st.store.any (fun u => u.name == v.name) then updateV st.store v.name (fun _ => v)
    else st.store ++ [v]
  { st with store := store1, index := idx3, tags := tags1, digests := digests1 }

/-- Embeds `GithubPackageRepo.getTags`: all tags, or — with the default argument
`includeAttestations = false` — only the tags whose resolved version is not
an attestation (a tag that resolves to no version is kept). -/
def getTags (st : RepoState) (includeAttestations : Bool := false) :
    List String :=
  if includeAttestations then st.tags
  else
    st.tags.filter (fun t =>
      match getVersion st (.str t) with
      | some v => !v.is_attestation
      | none => true)

/-- An externally visible action of the executor: a REST package-version
delete, a manifest PUT to the registry, or a re-listing of the package
versions. -/
inductive Effect where
  | restDelete (id : Nat)
  | putManifest (tag : String) (ghost : Manifest)
  | relist
deriving DecidableEq, Repr

/-- Embeds `GithubPackageRepo.deleteVersion`: resolve the key (throwing when it
resolves to nothing), issue the REST delete unless `dryRun`, then remove the
digest, name key, tag keys and tags, and id key, drop the object from the
store, and rebuild the roots with `scanRoots`.  Returns the new state and
the external effects performed. -/
def deleteVersionE (dryRun : Bool) (fuel : Nat) (st : RepoState) (key : VKey) :
    Except RunErr (RepoState × List Effect) := do
  match getVersion st key with
  | none => .error (.notFound "Package version not found")
  | some version =>
    let effs := if dryRun then [] else [Effect.restDelete version.id]
    let digests1 := setDelete st.digests version.name
    let idx1 := mapDelete st.index (.str version.name)
    let tags1 := version.tags.foldl (fun s t => setDelete s t) st.tags
    let idx2 := version.tags.foldl (fun m t => mapDelete m (.str t)) idx1
    let idx3 := mapDelete idx2 (.num version.id)
    let store1 := st.store.filter (fun u => !(u.name == version.name))
    let st1 : RepoState :=
      { st with store := store1, index := idx3, tags := tags1, digests := digests1 }
    let st2 ← scanRoots fuel st1
    pure (st2, effs)

/-- The ghost manifest built by `deleteTag`: the owner's manifest with its
`manifests` list emptied when present, otherwise its `layers` emptied. -/
def ghostManifest (m : Manifest) : Manifest :=
  match m.manifests with
  | some _ => { m with manifests := some [] }
  | none => { m with layers := some [] }

/-- Embeds `GithubPackageRepo.deleteTag`: resolve the tag (throwing when it
resolves to nothing); unless `dryRun`, PUT the ghost manifest under the tag;
remove the tag from the owner's tag list and from the tag set and index;
unless `dryRun`, re-list the package versions (`refetch` supplies the
response), add every fetched version carrying the tag, and delete the
resulting intermediate version (throwing when none was found). -/
def deleteTagE (dryRun : Bool) (fuel : Nat) (refetch : List PackageVersion)
    (st : RepoState) (tag : String) : Except RunErr (RepoState × List Effect) := do
  match getVersion st (.str tag) with
  | none => .error (.notFound "Version or manifest not found")
  | some version =>
    let effs1 := if dryRun then [] else [Effect.putManifest tag (ghostManifest version.manifest)]
    let store1 := updateV st.store version.name
      (fun v => { v with tags := v.tags.filter (fun t => !(t == tag)) })
    let st1 : RepoState :=
      { st with store := store1, tags := setDelete st.tags tag,
                index := mapDelete st.index (.str tag) }
    if dryRun then
      pure (st1, effs1)
    else
      let st2 := refetch.foldl
        (fun s rv => if tag ∈ rv.tags then addVersionState s rv else s) st1
      match getVersion st2 (.str tag) with
      | none => .error (.notFound "Intermediate version not found")
      | some _ => do
        let (st3, effs2) ← deleteVersionE dryRun fuel st2 (.str tag)
        pure (st3, effs1 ++ [Effect.relist] ++ effs2)

/-- The action configuration relevant to the selection engine.  The two tag
regular expressions are embedded as abstract match predicates. -/
structure Config where
  includeTags : Option (String → Bool) := none
  excludeTags : Option (String → Bool) := none
  keepNtagged : Option Nat := none
  keepNuntagged : Option Nat := none
  dryRun : Bool := false

/-- Embeds `CleanupAction.matchItems`: filter items by the regular expression. -/
def matchItems (p : String → Bool) (items : List String) : List String :=
  items.filter p

/-- Insert `x` into a sorted list: before the first element strictly after
it, after every element it does not strictly precede (so equal elements keep
their insertion order). -/
def insertBy (cmp : α → α → Ordering) (x : α) : List α → List α
  | [] => [x]
  | y :: ys => if cmp x y = .lt then x :: y :: ys else y :: insertBy cmp x ys

/-- A stable comparison sort, embedding `Array.prototype.sort` with a
user comparator (stable since ES2019). -/
def sortBy (cmp : α → α → Ordering) (l : List α) : List α :=
  l.foldl (fun acc x => insertBy cmp x acc) []

/-- The value the tag comparator feeds to `Date.parse`: the owning
version's `updated_at`, or the epoch string when the tag resolves to no
version (`?? '1970-01-01T00:00:00Z'`).  `none` is `NaN`. -/
def tagSortVal (dp : String → Option Int) (st : RepoState) (t : String) :
    Option Int :=
  match getVersion st (.str t) with
  | some v => dp v.updated_at
  | none => dp "1970-01-01T00:00:00Z"

/-- The tag comparator `(x, y) => Date.parse(…y…) - Date.parse(…x…)`
(descending by timestamp).  A `NaN` difference makes the sort treat the
pair as equal (ECMA-262 `SortCompare` maps `NaN` to `+0`). -/
def tagCmp (dp : String → Option Int) (st : RepoState) (x y : String) :
    Ordering :=
  match tagSortVal dp st x, tagSortVal dp st y with
  | some a, some b => compare b a
  | _, _ => .eq

/-- The version comparator of the untagged-images step, descending by
`updated_at`, `NaN` treated as equality. -/
def verCmp (dp : String → Option Int) (x y : PackageVersion) : Ordering :=
  match dp x.updated_at, dp y.updated_at with
  | some a, some b => compare b a
  | _, _ => .eq

/-- Embeds `CleanupAction.VersionSet`: the accumulated tag and version lists
(versions by name; the source holds object references). -/
structure VersionSet where
  tags : List String := []
  versions : List String := []
deriving DecidableEq, Repr, Inhabited

/-- Embeds `if (!this.versions.includes(v0)) this.versions.push(v0)`. -/
def vsPushVersion (vs : VersionSet) (v0 : String) : VersionSet :=
  if v0 ∈ vs.versions then vs else { vs with versions := vs.versions ++ [v0] }

/-- Embeds `if (!this.tags.includes(t)) this.tags.push(t)`. -/
def vsPushTag (vs : VersionSet) (t : String) : VersionSet :=
  if t ∈ vs.tags then vs else { vs with tags := vs.tags ++ [t] }

/-- The inner loop of `VersionSet.addVersions` over one closure: push each
closure version unless present, and each of its tags unless present. -/
def vsAddClosure (st : RepoState) (vs : VersionSet) (cl : List String) :
    VersionSet :=
  cl.foldl
    (fun vs v0 =>
      let ts := match findV st.store v0 with
        | some v => v.tags
        | none => []
      ts.foldl vsPushTag (vsPushVersion vs v0))
    vs

/-- Embeds `VersionSet.addVersions`: for each given version, add its whole
closure. -/
def addVersionsE (fuel : Nat) (st : RepoState) (vs : VersionSet)
    (names : List String) : Except RunErr VersionSet :=
  names.foldlM
    (fun vs v => do
      let c ← getClosureFuel st fuel v
      pure (vsAddClosure st vs c))
    vs

/-- Embeds `VersionSet.addTags`: for each tag that resolves to a version, push the
tag unless present and add the version's closure. -/
def addTagsE (fuel : Nat) (st : RepoState) (vs : VersionSet)
    (tags : List String) : Except RunErr VersionSet :=
  tags.foldlM
    (fun vs t => do
      match getVersion st (.str t) with
      | none => pure vs
      | some v =>
        addVersionsE fuel st (vsPushTag vs t) [v.name])
    vs

/-- The values computed by the selection part of `CleanupAction.run`,
including the intermediate sets, for inspection by the theorems. -/
structure Plan where
  aTags : List String
  bTags : List String
  remove1 : VersionSet
  keep1 : VersionSet
  tagsRest : List String
  cTags : List String
  dTags : List String
  remove2 : VersionSet
  keep2 : VersionSet
  imagesRest : List PackageVersion
  eVersions : List PackageVersion
  fVersions : List PackageVersion
  remove : VersionSet
  keep : VersionSet
  tagsDelete : List String
  versionsDelete : List String
deriving Repr, Inhabited

/-- The include step of `run`: the tags matching `include_tags` (empty when
the option is unset). -/
def aTagsOf (cfg : Config) (st : RepoState) : List String :=
  match cfg.includeTags with
  | some p => matchItems p (getTags st)
  | none => []

/-- The exclude step's matched tags. -/
def bTagsOf (cfg : Config) (st : RepoState) : List String :=
  match cfg.excludeTags with
  | some p => matchItems p (getTags st)
  | none => []

/-- The include step of `run`: feed the matched tags (with their closures)
into a fresh removal `VersionSet`; the empty set when unset. -/
def includeStep (cfg : Config) (fuel : Nat) (st : RepoState) :
    Except RunErr VersionSet :=
  match cfg.includeTags with
  | some p => addTagsE fuel st {} (matchItems p (getTags st))
  | none => .ok {}

/-- The exclude step of `run`, symmetrically for the keep set. -/
def excludeStep (cfg : Config) (fuel : Nat) (st : RepoState) :
    Except RunErr VersionSet :=
  match cfg.excludeTags with
  | some p => addTagsE fuel st {} (matchItems p (getTags st))
  | none => .ok {}

/-- Embeds `tagsRest` of `run`: the tags in neither accumulated set, sorted by the
owner's timestamp descending. -/
def restTags (dp : String → Option Int) (st : RepoState)
    (remove1 keep1 : VersionSet) : List String :=
  sortBy (tagCmp dp st)
    ((getTags st).filter
      (fun t => !(remove1.tags.contains t) && !(keep1.tags.contains t)))

/-- Embeds `c_tags` of `run`: the first `keep_n_tagged` of `tagsRest`, or all of it
when the option is unset. -/
def cTagsOf (cfg : Config) (tagsRest : List String) : List String :=
  match cfg.keepNtagged with
  | some n => tagsRest.take n
  | none => tagsRest

/-- Embeds `d_tags` of `run`: the remainder of `tagsRest`, empty when unset. -/
def dTagsOf (cfg : Config) (tagsRest : List String) : List String :=
  match cfg.keepNtagged with
  | some n => tagsRest.drop n
  | none => []

/-- Embeds `imagesRest` of `run`: the roots in neither accumulated version set and
not attestations, sorted by timestamp descending. -/
def imagesRestOf (dp : String → Option Int) (st : RepoState)
    (remove2 keep2 : VersionSet) : List PackageVersion :=
  sortBy (verCmp dp)
    ((((st.roots.filterMap (fun n => findV st.store n)).filter
          (fun v => !(remove2.versions.contains v.name))).filter
        (fun v => !(keep2.versions.contains v.name))).filter
      (fun v => !v.is_attestation))

/-- Embeds `e_versions` of `run`: the first `keep_n_untagged` of `imagesRest`, or
all of it when the option is unset. -/
def eVersionsOf (cfg : Config) (imagesRest : List PackageVersion) :
    List PackageVersion :=
  match cfg.keepNuntagged with
  | some n => imagesRest.take n
  | none => imagesRest

/-- The selection algorithm of `CleanupAction.run` (steps A through F and
the final plan), exactly as the source sequences it: the include and exclude
tag sets with their closures, the sorted remainder `tagsRest` split by
`keep_n_tagged`, the sorted untagged image roots split by
`keep_n_untagged`, and the two final difference sets. -/
def runPlan (cfg : Config) (dp : String → Option Int) (fuel : Nat)
    (st : RepoState) : Except RunErr Plan := do
  let remove1 ← includeStep cfg fuel st
  let keep1 ← excludeStep cfg fuel st
  let tagsRest := restTags dp st remove1 keep1
  let keep2 ← addTagsE fuel st keep1 (cTagsOf cfg tagsRest)
  let remove2 ← addTagsE fuel st remove1 (dTagsOf cfg tagsRest)
  let imagesRest := imagesRestOf dp st remove2 keep2
  let eVersions := eVersionsOf cfg imagesRest
  let keep3 ← addVersionsE fuel st keep2 (eVersions.map (·.name))
  let fVersions := imagesRest.filter (fun v => !(eVersions.contains v))
  let remove3 ← addVersionsE fuel st remove2 (fVersions.map (·.name))
  pure
    { aTags := aTagsOf cfg st, bTags := bTagsOf cfg st,
      remove1 := remove1, keep1 := keep1,
      tagsRest := tagsRest, cTags := cTagsOf cfg tagsRest,
      dTags := dTagsOf cfg tagsRest,
      remove2 := remove2, keep2 := keep2, imagesRest := imagesRest,
      eVersions := eVersions, fVersions := fVersions,
      remove := remove3, keep := keep3,
      tagsDelete := remove3.tags.filter (fun t => !(keep3.tags.contains t)),
      versionsDelete :=
        remove3.versions.filter (fun v => !(keep3.versions.contains v)) }

/-! ## Concrete scenarios -/

/-- A manifest reference with the usual OCI image media type. -/
def mref (d : String) : ManifestReference :=
  ⟨d, "application/vnd.oci.image.manifest.v1+json"⟩

/-- A multi-arch index manifest listing the given child digests. -/
def mIndex (ds : List String) : Manifest :=
  { mediaType := "application/vnd.oci.image.index.v1+json",
    manifests := some (ds.map mref) }

/-- A single-arch image manifest with one ordinary layer. -/
def mSingle : Manifest :=
  { mediaType := "application/vnd.oci.image.manifest.v1+json",
    layers := some [⟨"sha256:l", "application/octet-stream"⟩] }

/-- A manifest whose only link is an OCI 1.1 `subject` reference. -/
def mSub (d : String) : Manifest :=
  { mediaType := "application/vnd.oci.image.manifest.v1+json",
    subject := some (mref d) }

/-- Shared-child scenario, root X: a multi-arch index tagged `v1` whose
children are c1 and c2. -/
def vX : PackageVersion :=
  { id := 1, name := "sha256:x", updated_at := "2024-01-01T00:00:00Z",
    tags := ["v1"], manifest := mIndex ["sha256:c1", "sha256:c2"],
    children := ["sha256:c1", "sha256:c2"], vtype := .multiArch }

/-- Shared-child scenario, root Y: a multi-arch index tagged `v2` whose
children are c1 (shared with X) and c3. -/
def vY : PackageVersion :=
  { id := 2, name := "sha256:y", updated_at := "2024-01-02T00:00:00Z",
    tags := ["v2"], manifest := mIndex ["sha256:c1", "sha256:c3"],
    children := ["sha256:c1", "sha256:c3"], vtype := .multiArch }

/-- Shared child c1 (in the children lists of both X and Y). -/
def vC1 : PackageVersion :=
  { id := 3, name := "sha256:c1", updated_at := "2024-01-01T00:00:00Z",
    tags := [], manifest := mSingle, parent := some "sha256:x",
    vtype := .singleArch }

/-- Child c2 of X. -/
def vC2 : PackageVersion :=
  { id := 4, name := "sha256:c2", updated_at := "2024-01-01T00:00:00Z",
    tags := [], manifest := mSingle, parent := some "sha256:x",
    vtype := .singleArch }

/-- Child c3 of Y. -/
def vC3 : PackageVersion :=
  { id := 5, name := "sha256:c3", updated_at := "2024-01-01T00:00:00Z",
    tags := [], manifest := mSingle, parent := some "sha256:y",
    vtype := .singleArch }

/-- The shared-child forest: roots X and Y, children c1 (shared), c2, c3,
with the key index resolving every digest, id and tag. -/
def stShared : RepoState :=
  { store := [vX, vY, vC1, vC2, vC3],
    index := [(.str "sha256:x", "sha256:x"), (.num 1, "sha256:x"),
              (.str "v1", "sha256:x"),
              (.str "sha256:y", "sha256:y"), (.num 2, "sha256:y"),
              (.str "v2", "sha256:y"),
              (.str "sha256:c1", "sha256:c1"), (.num 3, "sha256:c1"),
              (.str "sha256:c2", "sha256:c2"), (.num 4, "sha256:c2"),
              (.str "sha256:c3", "sha256:c3"), (.num 5, "sha256:c3")],
    tags := ["v1", "v2"],
    digests := ["sha256:x", "sha256:y", "sha256:c1", "sha256:c2", "sha256:c3"],
    roots := ["sha256:x", "sha256:y"] }

/-- Config with `include-tags = ^v1$`, `exclude-tags = ^v2$`. -/
def cfgShared : Config :=
  { includeTags := some (fun t => t == "v1"),
    excludeTags := some (fun t => t == "v2") }

/-- A degenerate `Date.parse` giving every timestamp the same instant. -/
def dateZero : String → Option Int := fun _ => some 0

/-- Closure-tag-leak scenario, the root: a multi-arch index tagged `v1`
with the single child `sha256:c`. -/
def wX : PackageVersion :=
  { id := 1, name := "sha256:x", updated_at := "2024-01-01T00:00:00Z",
    tags := ["v1"], manifest := mIndex ["sha256:c"],
    children := ["sha256:c"], vtype := .multiArch }

/-- Closure-tag-leak scenario, the child: a single-arch image carrying its
own tag `w`. -/
def wC : PackageVersion :=
  { id := 2, name := "sha256:c", updated_at := "2024-01-01T00:00:00Z",
    tags := ["w"], manifest := mSingle, parent := some "sha256:x",
    vtype := .singleArch }

/-- The closure-tag-leak forest: one root tagged `v1` whose child carries
the tag `w`. -/
def stLeak : RepoState :=
  { store := [wX, wC],
    index := [(.str "sha256:x", "sha256:x"), (.num 1, "sha256:x"),
              (.str "v1", "sha256:x"),
              (.str "sha256:c", "sha256:c"), (.num 2, "sha256:c"),
              (.str "w", "sha256:c")],
    tags := ["v1", "w"],
    digests := ["sha256:x", "sha256:c"],
    roots := ["sha256:x"] }

/-- Config with `include-tags = ^v1$`, everything else unset. -/
def cfgLeak : Config := { includeTags := some (fun t => t == "v1") }

/-- The all-unset configuration. -/
def cfgUnset : Config := {}

/-- Two versions whose manifests name each other as `subject`. -/
def sA : PackageVersion :=
  { id := 1, name := "sha256:a", updated_at := "", tags := [],
    manifest := mSub "sha256:b" }

/-- The second half of the mutual-subject pair. -/
def sB : PackageVersion :=
  { id := 2, name := "sha256:b", updated_at := "", tags := [],
    manifest := mSub "sha256:a" }

/-- The repository holding the mutual-subject pair, before linking. -/
def stSubj : RepoState :=
  { store := [sA, sB],
    index := [(.str "sha256:a", "sha256:a"), (.num 1, "sha256:a"),
              (.str "sha256:b", "sha256:b"), (.num 2, "sha256:b")],
    tags := [], digests := ["sha256:a", "sha256:b"], roots := [] }

/-- The mutual-subject pair after the linking passes: each is the other's
parent and the other's only child — a two-cycle in the child relation. -/
def sA' : PackageVersion :=
  { sA with parent := some "sha256:b", children := ["sha256:b"] }

/-- See `sA'`. -/
def sB' : PackageVersion :=
  { sB with parent := some "sha256:a", children := ["sha256:a"] }

/-- The repository state produced by `scanRoots` on `stSubj`. -/
def stCyc : RepoState := { stSubj with store := [sA', sB'], roots := [] }

/-! ## Claim-side comparison definitions and further concrete instances -/

/-- The layers list of a version's manifest, `[]` when absent. -/
def layersOf (v : PackageVersion) : List ManifestReference :=
  v.manifest.layers.getD []

/-- Whether the manifest's `manifests` field is present and non-empty. -/
def manifestsNonEmpty (v : PackageVersion) : Bool :=
  match v.manifest.manifests with
  | some ms => !ms.isEmpty
  | none => false

/-- Modelled from the claim's wording (for comparison with the source's
`getArtifactType`): attestation when layers are non-empty and all in-toto,
else attestation when `subject` is defined, else attestation on a referrer
tag, else single-arch on non-empty layers, else multi-arch on non-empty
`manifests`, else unknown — all three attestation checks first. -/
def getArtifactTypeClaim (v : PackageVersion) : PackageVersionType :=
  if !(layersOf v).isEmpty &&
      (layersOf v).all (fun l => l.mediaType == inTotoType) then .attestation
  else if v.manifest.subject.isSome then .attestation
  else if v.tags.any isSha256ReferrerTag then .attestation
  else if !(layersOf v).isEmpty then .singleArch
  else if manifestsNonEmpty v then .multiArch
  else .unknown

/-- A manifest with one non-in-toto layer and a `subject` reference: an
attestation by the claim's second check, a single-arch image to the code. -/
def subjectWithLayers : PackageVersion :=
  { id := 10, name := "sha256:w1", updated_at := "", tags := [],
    manifest := { mediaType := "application/vnd.oci.image.manifest.v1+json",
                  layers := some [⟨"sha256:l", "application/octet-stream"⟩],
                  subject := some (mref "sha256:s") } }

/-- A manifest with a present but empty layers list: unknown by the claim
(its first check requires non-empty layers), an attestation to the code
(`[].every(…)` is vacuously true). -/
def emptyLayersVersion : PackageVersion :=
  { id := 11, name := "sha256:w2", updated_at := "", tags := [],
    manifest := { mediaType := "application/vnd.oci.image.manifest.v1+json",
                  layers := some [] } }

/-- Claim C3 as amended: when the `layers` field is present (even empty)
the classification is attestation if every layer is in-toto (vacuously for
an empty list) and single-arch otherwise; only when `layers` is absent do
the `subject` check, the referrer-tag check, and the multi-arch check
apply, in that order. -/
def getArtifactTypeAmended (v : PackageVersion) : PackageVersionType :=
  if v.manifest.layers.isSome then
    if (layersOf v).all (fun l => l.mediaType == inTotoType) then .attestation
    else .singleArch
  else if v.manifest.subject.isSome then .attestation
  else if v.tags.any isSha256ReferrerTag then .attestation
  else if manifestsNonEmpty v then .multiArch
  else .unknown

/-- Modelled from the claim's wording (for comparison with the plan the
code computes): the set `(A_tag ∖ B_tag) ∪ D_tag`. -/
def tagsDeleteClaim (p : Plan) : List String :=
  p.aTags.filter (fun t => !(p.bTags.contains t)) ++ p.dTags

/-- Modelled from the claim's wording (for comparison with the `tagsRest`
the code computes): all tags in neither `A_tag` nor `B_tag`, sorted by the
owner's `updated_at` descending. -/
def tagsRestClaim (dp : String → Option Int) (st : RepoState) (p : Plan) :
    List String :=
  sortBy (tagCmp dp st)
    ((getTags st).filter (fun t => !(p.aTags.contains t) && !(p.bTags.contains t)))

/-- Sixty-four `a` characters: the hexadecimal part of a digest. -/
def hexA : String := String.mk (List.replicate 64 'a')

/-- A root image whose digest is `sha256:<hexA>`. -/
def rA : PackageVersion :=
  { id := 1, name := "sha256:" ++ hexA, updated_at := "", tags := ["v1"],
    manifest := mSingle }

/-- A referrer carrying the OCI 1.0 fallback tag `sha256-<hexA>` that
encodes rA's digest. -/
def rB : PackageVersion :=
  { id := 2, name := "sha256:bbb", updated_at := "", tags := ["sha256-" ++ hexA],
    manifest := mSingle }

/-- The key index for the referrer-tag example. -/
def idxR : List (VKey × String) :=
  [(.str ("sha256:" ++ hexA), "sha256:" ++ hexA), (.str "v1", "sha256:" ++ hexA),
   (.str "sha256:bbb", "sha256:bbb"), (.str ("sha256-" ++ hexA), "sha256:bbb")]

/-- The working set for the referrer-tag example. -/
def wsR : List String := ["sha256:" ++ hexA, "sha256:bbb"]

/-- The plan computed on the closure-tag-leak forest with everything
unset. -/
def planUnsetLeak : Plan :=
  (runPlan cfgUnset dateZero 10 stLeak).toOption.getD default

/-- The plan computed on the closure-tag-leak forest with
`include-tags = ^v1$`. -/
def planLeak : Plan :=
  (runPlan cfgLeak dateZero 10 stLeak).toOption.getD default

/-- The result of a dry-run `deleteVersion` of the child on the leak
forest. -/
def dvLeak : RepoState × List Effect :=
  (deleteVersionE true 10 stLeak (.str "sha256:c")).toOption.getD default

/-- The result of a dry-run `deleteTag` of `v1` on the leak forest. -/
def dtLeak : RepoState × List Effect :=
  (deleteTagE true 10 [] stLeak "v1").toOption.getD default

/-! ## Claim C1 -/

/-- Claim C1: in a forest consisting of multi-arch root X (children c1, c2;
tag v1), multi-arch root Y (children c1, c3; tag v2) and the children c1,
c2, c3, the selection engine with `include_tags = ^v1$` and
`exclude_tags = ^v2$` yields `versions_delete = {X, c2}`: the shared child
c1 and Y's child c3 survive because every digest of a kept closure is
subtracted from the deletion set, and Y itself survives. -/
theorem c1_shared_child_integrity :
    (runPlan cfgShared dateZero 10 stShared).map
        (fun p => (p.versionsDelete,
                   p.versionsDelete.contains "sha256:c1",
                   p.versionsDelete.contains "sha256:c3",
                   p.versionsDelete.contains "sha256:y",
                   p.remove.versions, p.keep.versions)) =
      .ok (["sha256:x", "sha256:c2"], false, false, false,
           ["sha256:x", "sha256:c1", "sha256:c2"],
           ["sha256:y", "sha256:c1", "sha256:c3"]) := by
  rfl

/-! ## Claim C3 -/

/-- Claim C3 is false of the code: a version with non-in-toto layers and a
defined `subject` is classified single-arch (the claim's ordering demands
attestation), and a version with an empty layers list is classified
attestation (the claim demands unknown). -/
theorem c3_counterexample :
    getArtifactType subjectWithLayers = .singleArch ∧
    getArtifactTypeClaim subjectWithLayers = .attestation ∧
    getArtifactType emptyLayersVersion = .attestation ∧
    getArtifactTypeClaim emptyLayersVersion = .unknown :=
  ⟨rfl, rfl, rfl, rfl⟩

/-- Claim C3, amended: the source classification agrees everywhere with the
amended decision list. -/
theorem c3_amended_classification (v : PackageVersion) :
    getArtifactType v = getArtifactTypeAmended v := by
  unfold getArtifactType getArtifactTypeAmended layersOf manifestsNonEmpty
  cases hl : v.manifest.layers with
  | some ls => simp [hl]
  | none =>
    cases hm : v.manifest.manifests with
    | none => simp [hl, hm]
    | some ms =>
      cases ms with
      | nil => simp [hl, hm, List.isEmpty]
      | cons m ms' => simp [hl, hm, List.isEmpty]

/-! ## Claim C4 -/

/-- The linking passes connect the mutual-subject pair into a two-cycle
(and yield an empty root set), without error. -/
theorem scanRoots_stSubj : scanRoots 10 stSubj = .ok stCyc := rfl

/-- Claim C4 names a real defect: `visit` and `getClosure` track no visited
nodes, so on the cyclic store that the resolver itself builds from two
mutually-referring `subject` manifests, both recursions diverge — for every
fuel bound the fueled embedding fails to produce a result — where the claim
asserts they detect revisits and terminate. -/
theorem c4_cycle_nontermination :
    scanRoots 10 stSubj = .ok stCyc ∧
    ∀ n, visitFuel stCyc.store n "sha256:a" = .error .fuel ∧
         visitFuel stCyc.store n "sha256:b" = .error .fuel ∧
         getClosureFuel stCyc n "sha256:a" = .error .fuel ∧
         getClosureFuel stCyc n "sha256:b" = .error .fuel := by
  refine ⟨rfl, ?_⟩
  intro n
  induction n with
  | zero => exact ⟨rfl, rfl, rfl, rfl⟩
  | succ n ih =>
    obtain ⟨ha, hb, hca, hcb⟩ := ih
    refine ⟨?_, ?_, ?_, ?_⟩
    · have h1 : findV stCyc.store "sha256:a" = some sA' := rfl
      simp only [visitFuel, h1]
      simp [sA', sA, hb, Except.bind, Except.map]
    · have h1 : findV stCyc.store "sha256:b" = some sB' := rfl
      simp only [visitFuel, h1]
      simp [sB', sB, ha, Except.bind, Except.map]
    · have h1 : getVersion stCyc (.str "sha256:a") = some sA' := rfl
      simp only [getClosureFuel, h1]
      simp [sA', sA, hcb, Except.bind, Except.map]
    · have h1 : getVersion stCyc (.str "sha256:b") = some sB' := rfl
      simp only [getClosureFuel, h1]
      simp [sB', sB, hca, Except.bind, Except.map]

/-! ## Claim C2, counterexample -/

/-- Claim C2 is false of the code: on the forest whose root is tagged `v1`
with a child tagged `w`, with `include_tags = ^v1$` and all else unset, the
code deletes `{v1, w}` while `(A_tag ∖ B_tag) ∪ D_tag = {v1}` — the tag `w`
is merely owned by a version inside the deleted closure, yet it appears in
`tags_delete`. -/
theorem c2_counterexample :
    (runPlan cfgLeak dateZero 10 stLeak).map
        (fun p => (p.tagsDelete, tagsDeleteClaim p,
                   p.tagsDelete.contains "w",
                   (tagsDeleteClaim p).contains "w")) =
      .ok (["v1", "w"], ["v1"], true, false) := by
  rfl

/-! ## Claim C6, counterexample -/

/-- Claim C6 is false of the code: on the same forest, `tagsRest` as the
claim defines it is `{w}` (w matches neither regular expression), but the
code computes `tagsRest = ∅` because it excludes every tag in
`remove.tags`/`keep.tags`, which contain all tags of all closure versions of
the matched tags' owners — here `w`, a tag of the included root's child. -/
theorem c6_counterexample :
    (runPlan cfgLeak dateZero 10 stLeak).map
        (fun p => (p.tagsRest, tagsRestClaim dateZero stLeak p)) =
      .ok ([], ["w"]) := by
  rfl

/-! ## Store lemmas -/

/-- Looking up the updated name finds the updated object, provided the
update preserves names. -/
theorem findV_updateV_self (st : Store) (n : String)
    (f : PackageVersion → PackageVersion)
    (hf : ∀ v, (f v).name = v.name) :
    findV (updateV st n f) n = (findV st n).map f := by
  induction st with
  | nil => rfl
  | cons v st ih =>
    show findV ((if (v.name == n) then f v else v) :: updateV st n f) n =
      (findV (v :: st) n).map f
    cases hb : (v.name == n) with
    | true =>
      have hb' : ((f v).name == n) = true := by rw [hf v]; exact hb
      rw [if_pos rfl]
      simp only [findV, List.find?_cons, hb, hb']
      rfl
    | false =>
      rw [if_neg (by simp)]
      simp only [findV, List.find?_cons, hb]
      exact ih

/-- Looking up a different name is unaffected by an update, provided the
update preserves names. -/
theorem findV_updateV_ne (st : Store) (n m : String)
    (f : PackageVersion → PackageVersion)
    (hf : ∀ v, (f v).name = v.name) (hnm : m ≠ n) :
    findV (updateV st n f) m = findV st m := by
  induction st with
  | nil => rfl
  | cons v st ih =>
    show findV ((if (v.name == n) then f v else v) :: updateV st n f) m =
      findV (v :: st) m
    cases hb : (v.name == n) with
    | true =>
      have hvn : v.name = n := by simpa using hb
      have h1 : ((f v).name == m) = false := by
        simp only [hf v, hvn]
        simpa using fun h => hnm h.symm
      have h2 : (v.name == m) = false := by
        simp only [hvn]
        simpa using fun h => hnm h.symm
      rw [if_pos rfl]
      simp only [findV, List.find?_cons, h1, h2]
      exact ih
    | false =>
      rw [if_neg (by simp)]
      cases hm : (v.name == m) with
      | true => simp only [findV, List.find?_cons, hm]
      | false =>
        simp only [findV, List.find?_cons, hm]
        exact ih

/-! ## Claim C8 -/

/-- Claim C8: `link(parent, child)` fails with the self-link error exactly
when `parent = child`; fails with the conflicting-parent error exactly when
(besides `parent ≠ child`) the child's parent is already a different node;
succeeds without any change when the child's parent is already this parent;
on a fresh child sets `child.parent` and appends the child to
`parent.children` unless already present; and re-invoking it on the same
pair after success leaves the store unchanged (idempotence). -/
theorem c8_link_versions (st : Store) (p c : String)
    (pv cv : PackageVersion)
    (hp : findV st p = some pv) (hc : findV st c = some cv) :
    (linkVersions st p c = .error .selfLink ↔ p = c) ∧
    (linkVersions st p c = .error .conflictingParent ↔
       p ≠ c ∧ ∃ q, cv.parent = some q ∧ q ≠ p) ∧
    (p ≠ c → cv.parent = some p → linkVersions st p c = .ok st) ∧
    (p ≠ c → cv.parent = none →
       ∃ st', linkVersions st p c = .ok st' ∧
         findV st' c = some { cv with parent := some p } ∧
         findV st' p =
           some (if c ∈ pv.children then pv
                 else { pv with children := pv.children ++ [c] })) ∧
    (∀ st', linkVersions st p c = .ok st' → linkVersions st' p c = .ok st') := by
  have hfc : ∀ v : PackageVersion,
      ((fun v : PackageVersion => { v with parent := some p }) v).name = v.name :=
    fun _ => rfl
  have hfp : ∀ v : PackageVersion,
      ((fun v : PackageVersion =>
        if c ∈ v.children then v
        else { v with children := v.children ++ [c] }) v).name = v.name := by
    intro v
    by_cases h : c ∈ v.children <;> simp [h]
  by_cases hpc : p = c
  · subst hpc
    refine ⟨by simp [linkVersions], ?_, ?_, ?_, ?_⟩
    · constructor
      · intro h; simp [linkVersions] at h
      · rintro ⟨h, -⟩; exact absurd rfl h
    · intro h; exact absurd rfl h
    · intro h; exact absurd rfl h
    · intro st' h; simp [linkVersions] at h
  · cases hcp : cv.parent with
    | some q =>
      by_cases hq : q = p
      · have hstep : linkVersions st p c = .ok st := by
          simp [linkVersions, hpc, hc, hcp, hq]
        refine ⟨?_, ?_, ?_, ?_, ?_⟩
        · rw [hstep]; simp [hpc]
        · rw [hstep]
          constructor
          · intro h; cases h
          · rintro ⟨-, q', hq', hne⟩
            have hqq : q = q' := Option.some_inj.mp hq'
            exact absurd (hqq ▸ hq) hne
        · intro _ _; exact hstep
        · intro _ hnone; cases hnone
        · intro st' h
          rw [hstep] at h
          cases h
          exact hstep
      · have hstep : linkVersions st p c = .error .conflictingParent := by
          simp [linkVersions, hpc, hc, hcp, hq]
        refine ⟨?_, ?_, ?_, ?_, ?_⟩
        · rw [hstep]; simp [hpc]
        · rw [hstep]
          exact ⟨fun _ => ⟨hpc, q, rfl, hq⟩, fun _ => rfl⟩
        · intro _ hps
          exact absurd (Option.some_inj.mp hps) hq
        · intro _ hnone; cases hnone
        · intro st' h; rw [hstep] at h; cases h
    | none =>
      have hstep :
          linkVersions st p c =
            .ok (updateV (updateV st c (fun v => { v with parent := some p })) p
              (fun v => if c ∈ v.children then v
                        else { v with children := v.children ++ [c] })) := by
        simp [linkVersions, hpc, hc, hcp]
      have hc' :
          findV (updateV (updateV st c (fun v => { v with parent := some p })) p
              (fun v => if c ∈ v.children then v
                        else { v with children := v.children ++ [c] })) c =
            some { cv with parent := some p } := by
        rw [findV_updateV_ne _ _ _ _ hfp (fun h => hpc h.symm),
          findV_updateV_self _ _ _ hfc, hc]
        rfl
      have hp' :
          findV (updateV (updateV st c (fun v => { v with parent := some p })) p
              (fun v => if c ∈ v.children then v
                        else { v with children := v.children ++ [c] })) p =
            some (if c ∈ pv.children then pv
                  else { pv with children := pv.children ++ [c] }) := by
        rw [findV_updateV_self _ _ _ hfp, findV_updateV_ne _ _ _ _ hfc hpc, hp]
        rfl
      refine ⟨?_, ?_, ?_, ?_, ?_⟩
      · rw [hstep]; simp [hpc]
      · rw [hstep]
        constructor
        · intro h; cases h
        · rintro ⟨-, q', hq', -⟩; cases hq'
      · intro _ hps; cases hps
      · intro _ _; exact ⟨_, hstep, hc', hp'⟩
      · intro st' h
        rw [hstep] at h
        cases h
        simp [linkVersions, hpc, hc']

/-- Witness for C8: a two-version store on which the success case of
`linkVersions` is realised at concrete inputs, discharging the theorem's
hypotheses by evaluation. -/
theorem c8_link_versions_witness :
    ∃ st', linkVersions [sA, sB] "sha256:a" "sha256:b" = .ok st' ∧
      findV st' "sha256:b" = some { sB with parent := some "sha256:a" } ∧
      findV st' "sha256:a" =
        some { sA with children := sA.children ++ ["sha256:b"] } := by
  have h := (c8_link_versions [sA, sB] "sha256:a" "sha256:b" sA sB rfl rfl).2.2.2.1
    (by decide) rfl
  obtain ⟨st', h1, h2, h3⟩ := h
  refine ⟨st', h1, h2, ?_⟩
  rw [h3]
  simp [sA]

/-! ## Claim C7 -/

/-- A successful `findV` returns a version carrying the looked-up name. -/
theorem findV_name {st : Store} {n : String} {v : PackageVersion}
    (h : findV st n = some v) : v.name = n := by
  have := List.find?_some h
  simpa using this

/-- Membership in a fold that concatenates per-element blocks. -/
theorem mem_foldr_append {α β : Type} (g : α → List β) (L : List α) (x : β) :
    x ∈ L.foldr (fun a acc => g a ++ acc) [] ↔ ∃ a ∈ L, x ∈ g a := by
  induction L with
  | nil => simp
  | cons a L ih => simp [ih]

/-- Lemma: `replaceFirstDash` rewrites exactly the first dash. -/
theorem replaceFirstDash_append (s₁ s₂ : List Char) (h : '-' ∉ s₁) :
    replaceFirstDash (s₁ ++ '-' :: s₂) = s₁ ++ ':' :: s₂ := by
  induction s₁ with
  | nil => simp [replaceFirstDash]
  | cons c cs ih =>
    have hc : c ≠ '-' := fun hh => h (hh ▸ List.mem_cons_self c cs)
    have hcs : '-' ∉ cs := fun hh => h (List.mem_cons_of_mem c hh)
    simp [replaceFirstDash, hc, ih hcs]

/-- Lemma: `replaceFirstDash` leaves a dash-free list unchanged. -/
theorem replaceFirstDash_id (s : List Char) (h : '-' ∉ s) :
    replaceFirstDash s = s := by
  induction s with
  | nil => rfl
  | cons c cs ih =>
    have hc : c ≠ '-' := fun hh => h (hh ▸ List.mem_cons_self c cs)
    have hcs : '-' ∉ cs := fun hh => h (List.mem_cons_of_mem c hh)
    simp [replaceFirstDash, hc, ih hcs]

/-- Claim C7: the referrer-tag pass's link requests are exactly the pairs
`(u, v)` with `v` a working-set version, `t` one of its tags, and the lookup
of `t` with its first `-` replaced by `:` resolving to a version `u`
different from `v` and in the working set; `u` is recorded as the parent
(first component, fed to `linkVersions u v` by `scanRoots`); the pass never
requests a self-link; and the transform really replaces only the first
dash. -/
theorem c7_referrer_tag_pass (idx : List (VKey × String)) (st : Store)
    (ws : List String) :
    (∀ par ch, (par, ch) ∈ referrerTagPairs idx st ws → par ≠ ch) ∧
    (∀ par ch, (par, ch) ∈ referrerTagPairs idx st ws ↔
       ∃ v0, (∃ n, n ∈ ws ∧ findV st n = some v0) ∧ ch = v0.name ∧
         ∃ t, t ∈ v0.tags ∧
           ∃ u, (mapGet idx (.str (replaceFirst t))).bind
                  (fun n => findV st n) = some u ∧
             par = u.name ∧ u.name ≠ v0.name ∧ u.name ∈ ws) ∧
    (∀ s₁ s₂ : List Char, '-' ∉ s₁ →
       replaceFirst ⟨s₁ ++ '-' :: s₂⟩ = ⟨s₁ ++ ':' :: s₂⟩) ∧
    (∀ s : List Char, '-' ∉ s → replaceFirst ⟨s⟩ = ⟨s⟩) := by
  have hchar : ∀ par ch, (par, ch) ∈ referrerTagPairs idx st ws ↔
      ∃ v0, (∃ n, n ∈ ws ∧ findV st n = some v0) ∧ ch = v0.name ∧
        ∃ t, t ∈ v0.tags ∧
          ∃ u, (mapGet idx (.str (replaceFirst t))).bind
                 (fun n => findV st n) = some u ∧
            par = u.name ∧ u.name ≠ v0.name ∧ u.name ∈ ws := by
    intro par ch
    rw [referrerTagPairs, mem_foldr_append]
    constructor
    · rintro ⟨v0, hv0, hpc⟩
      rw [List.mem_filterMap] at hv0
      obtain ⟨n, hn, hfind⟩ := hv0
      rw [List.mem_map] at hpc
      obtain ⟨u, hu, hueq⟩ := hpc
      cases hueq
      rw [referrerTagTargets, List.mem_map] at hu
      obtain ⟨v1, hv1, hv1u⟩ := hu
      rw [List.mem_filter] at hv1
      obtain ⟨hv1mem, hv1cond⟩ := hv1
      rw [List.mem_filterMap] at hv1mem
      obtain ⟨o, ho, hoid⟩ := hv1mem
      rw [List.mem_map] at ho
      obtain ⟨t, ht, hto⟩ := ho
      simp only [Bool.and_eq_true, Bool.not_eq_true'] at hv1cond
      obtain ⟨hne, hcont⟩ := hv1cond
      refine ⟨v0, ⟨n, hn, hfind⟩, rfl, t, ht, v1, ?_, hv1u.symm, ?_, ?_⟩
      · rw [hto]; simpa using hoid
      · intro hcontr
        rw [hcontr] at hne
        simp at hne
      · exact List.mem_of_elem_eq_true hcont
    · rintro ⟨v0, ⟨n, hn, hfind⟩, hch, t, ht, u, hu, hpar, hune, huws⟩
      refine ⟨v0, ?_, ?_⟩
      · rw [List.mem_filterMap]; exact ⟨n, hn, hfind⟩
      · rw [List.mem_map]
        refine ⟨par, ?_, by rw [hch]⟩
        rw [referrerTagTargets, List.mem_map]
        refine ⟨u, ?_, hpar.symm⟩
        rw [List.mem_filter]
        refine ⟨?_, ?_⟩
        · rw [List.mem_filterMap]
          refine ⟨(mapGet idx (.str (replaceFirst t))).bind (fun n => findV st n),
            ?_, by rw [hu]; rfl⟩
          rw [List.mem_map]
          exact ⟨t, ht, rfl⟩
        · simp only [Bool.and_eq_true, Bool.not_eq_true']
          refine ⟨by simpa using hune, List.elem_eq_true_of_mem huws⟩
  refine ⟨?_, hchar, ?_, ?_⟩
  · intro par ch hmem
    obtain ⟨v0, ⟨n, hn, hfind⟩, hch, t, ht, u, hu, hpar, hune, -⟩ :=
      (hchar par ch).mp hmem
    rw [hpar, hch]
    exact hune
  · intro s₁ s₂ h
    show (⟨replaceFirstDash (String.toList ⟨s₁ ++ '-' :: s₂⟩)⟩ : String) = ⟨s₁ ++ ':' :: s₂⟩
    rw [show String.toList ⟨s₁ ++ '-' :: s₂⟩ = s₁ ++ '-' :: s₂ from rfl,
      replaceFirstDash_append s₁ s₂ h]
  · intro s h
    show (⟨replaceFirstDash (String.toList ⟨s⟩)⟩ : String) = ⟨s⟩
    rw [show String.toList ⟨s⟩ = s from rfl, replaceFirstDash_id s h]

/-- Witness for C7: on the concrete referrer-tag example the pass requests
exactly the link of rA as parent of rB, and the theorem's no-self-link part
applies to that concrete request. -/
theorem c7_referrer_tag_pass_witness :
    ("sha256:" ++ hexA, "sha256:bbb") ∈ referrerTagPairs idxR [rA, rB] wsR ∧
    ("sha256:" ++ hexA : String) ≠ "sha256:bbb" := by
  have hmem : ("sha256:" ++ hexA, "sha256:bbb") ∈ referrerTagPairs idxR [rA, rB] wsR := by
    decide
  exact ⟨hmem, (c7_referrer_tag_pass idxR [rA, rB] wsR).1 _ _ hmem⟩

/-- Inverting a successful `Except` bind. -/
theorem except_bind_ok {ε α β : Type} (e : Except ε α) (f : α → Except ε β)
    (b : β) : (e >>= f) = .ok b ↔ ∃ a, e = .ok a ∧ f a = .ok b := by
  cases e with
  | error err => simp [Bind.bind, Except.bind]
  | ok a => simp [Bind.bind, Except.bind]

/-- Inversion of a successful `runPlan`: every field of the produced plan is
exactly the corresponding stage value of the source algorithm. -/
theorem runPlan_ok_spec (cfg : Config) (dp : String → Option Int)
    (fuel : Nat) (st : RepoState) (p : Plan)
    (h : runPlan cfg dp fuel st = .ok p) :
    p.aTags = aTagsOf cfg st ∧
    p.bTags = bTagsOf cfg st ∧
    includeStep cfg fuel st = .ok p.remove1 ∧
    excludeStep cfg fuel st = .ok p.keep1 ∧
    p.tagsRest = restTags dp st p.remove1 p.keep1 ∧
    p.cTags = cTagsOf cfg p.tagsRest ∧
    p.dTags = dTagsOf cfg p.tagsRest ∧
    addTagsE fuel st p.keep1 p.cTags = .ok p.keep2 ∧
    addTagsE fuel st p.remove1 p.dTags = .ok p.remove2 ∧
    p.imagesRest = imagesRestOf dp st p.remove2 p.keep2 ∧
    p.eVersions = eVersionsOf cfg p.imagesRest ∧
    addVersionsE fuel st p.keep2 (p.eVersions.map (·.name)) = .ok p.keep ∧
    p.fVersions = p.imagesRest.filter (fun v => !(p.eVersions.contains v)) ∧
    addVersionsE fuel st p.remove2 (p.fVersions.map (·.name)) = .ok p.remove ∧
    p.tagsDelete = p.remove.tags.filter (fun t => !(p.keep.tags.contains t)) ∧
    p.versionsDelete =
      p.remove.versions.filter (fun v => !(p.keep.versions.contains v)) := by
  unfold runPlan at h
  rw [except_bind_ok] at h
  obtain ⟨r1, h1, h⟩ := h
  rw [except_bind_ok] at h
  obtain ⟨k1, h2, h⟩ := h
  rw [except_bind_ok] at h
  obtain ⟨k2, h3, h⟩ := h
  rw [except_bind_ok] at h
  obtain ⟨r2, h4, h⟩ := h
  rw [except_bind_ok] at h
  obtain ⟨k3, h5, h⟩ := h
  rw [except_bind_ok] at h
  obtain ⟨r3, h6, h⟩ := h
  cases h
  exact ⟨rfl, rfl, h1, h2, rfl, rfl, rfl, h3, h4, rfl, rfl, h5, rfl, h6, rfl, rfl⟩

/-! ## Sorting lemmas -/

/-- Membership through `insertBy`. -/
theorem mem_insertBy {α : Type} (cmp : α → α → Ordering) (x a : α)
    (l : List α) : a ∈ insertBy cmp x l ↔ a = x ∨ a ∈ l := by
  induction l with
  | nil => simp [insertBy]
  | cons y ys ih =>
    by_cases h : cmp x y = .lt
    · simp [insertBy, h]
      try tauto
    · simp [insertBy, h, ih]
      try tauto

/-- Membership through the stable sort. -/
theorem mem_sortBy {α : Type} (cmp : α → α → Ordering) (l : List α) (a : α) :
    a ∈ sortBy cmp l ↔ a ∈ l := by
  suffices h : ∀ acc : List α,
      a ∈ l.foldl (fun acc x => insertBy cmp x acc) acc ↔ a ∈ acc ∨ a ∈ l by
    simpa [sortBy] using h []
  induction l with
  | nil => simp
  | cons x xs ih =>
    intro acc
    rw [List.foldl_cons, ih]
    simp [mem_insertBy]
    try tauto

/-- Lemma: `insertBy` preserves the no-later-element-strictly-precedes invariant,
for a comparator whose strict part is transitive and asymmetric. -/
theorem pairwise_insertBy {α : Type} (cmp : α → α → Ordering) (x : α)
    (l : List α)
    (htrans : ∀ a b c, cmp a b = .lt → cmp b c = .lt → cmp a c = .lt)
    (hasym : ∀ a b, cmp a b = .lt → cmp b a ≠ .lt)
    (hl : l.Pairwise (fun a b => cmp b a ≠ .lt)) :
    (insertBy cmp x l).Pairwise (fun a b => cmp b a ≠ .lt) := by
  induction l with
  | nil => simp [insertBy]
  | cons y ys ih =>
    rw [List.pairwise_cons] at hl
    obtain ⟨hy, hys⟩ := hl
    by_cases h : cmp x y = .lt
    · rw [insertBy, if_pos h, List.pairwise_cons]
      refine ⟨?_, by rw [List.pairwise_cons]; exact ⟨hy, hys⟩⟩
      intro z hz
      rcases List.mem_cons.mp hz with rfl | hz'
      · exact hasym x z h
      · intro hcontr
        exact (hy z hz') (htrans z x y hcontr h)
    · rw [insertBy, if_neg h, List.pairwise_cons]
      refine ⟨?_, ih hys⟩
      intro z hz
      rcases (mem_insertBy cmp x z ys).mp hz with rfl | hz'
      · exact h
      · exact hy z hz'

/-- The stable sort is sorted: no later element strictly precedes an
earlier one, for a comparator with transitive, asymmetric strict part. -/
theorem pairwise_sortBy {α : Type} (cmp : α → α → Ordering) (l : List α)
    (htrans : ∀ a b c, cmp a b = .lt → cmp b c = .lt → cmp a c = .lt)
    (hasym : ∀ a b, cmp a b = .lt → cmp b a ≠ .lt) :
    (sortBy cmp l).Pairwise (fun a b => cmp b a ≠ .lt) := by
  suffices h : ∀ acc : List α, acc.Pairwise (fun a b => cmp b a ≠ .lt) →
      (l.foldl (fun acc x => insertBy cmp x acc) acc).Pairwise
        (fun a b => cmp b a ≠ .lt) by
    exact h [] (by simp)
  induction l with
  | nil => intro acc hacc; simpa using hacc
  | cons x xs ih =>
    intro acc hacc
    rw [List.foldl_cons]
    exact ih _ (pairwise_insertBy cmp x acc htrans hasym hacc)

/-- The strict part of the tag comparator is transitive. -/
theorem tagCmp_trans (dp : String → Option Int) (st : RepoState)
    (a b c : String) (h1 : tagCmp dp st a b = .lt)
    (h2 : tagCmp dp st b c = .lt) : tagCmp dp st a c = .lt := by
  unfold tagCmp at *
  cases ha : tagSortVal dp st a with
  | none => simp [ha] at h1
  | some va =>
    cases hb : tagSortVal dp st b with
    | none => simp [ha, hb] at h1
    | some vb =>
      cases hc : tagSortVal dp st c with
      | none => simp [hb, hc] at h2
      | some vc =>
        have hb1 : vb < va :=
          Batteries.compareOfLessAndEq_eq_lt.mp (by simpa [ha, hb] using h1)
        have hc1 : vc < vb :=
          Batteries.compareOfLessAndEq_eq_lt.mp (by simpa [hb, hc] using h2)
        simp only [ha, hc]
        show compare vc va = .lt
        exact Batteries.compareOfLessAndEq_eq_lt.mpr (lt_trans hc1 hb1)

/-- The strict part of the tag comparator is asymmetric. -/
theorem tagCmp_asym (dp : String → Option Int) (st : RepoState)
    (a b : String) (h1 : tagCmp dp st a b = .lt) :
    tagCmp dp st b a ≠ .lt := by
  unfold tagCmp at *
  cases ha : tagSortVal dp st a with
  | none => simp [ha] at h1
  | some va =>
    cases hb : tagSortVal dp st b with
    | none => simp [ha, hb] at h1
    | some vb =>
      have hb1 : vb < va :=
        Batteries.compareOfLessAndEq_eq_lt.mp (by simpa [ha, hb] using h1)
      simp only [ha, hb]
      show compare va vb ≠ .lt
      intro hcon
      exact absurd (Batteries.compareOfLessAndEq_eq_lt.mp hcon)
        (not_lt.mpr (le_of_lt hb1))

/-! ## VersionSet lemmas -/

/-- Pushing a tag does not change the version list. -/
theorem vsPushTag_versions (vs : VersionSet) (t : String) :
    (vsPushTag vs t).versions = vs.versions := by
  unfold vsPushTag
  split <;> rfl

/-- Membership after pushing a tag. -/
theorem vsPushTag_tags_mem (vs : VersionSet) (t s : String) :
    s ∈ (vsPushTag vs t).tags ↔ s = t ∨ s ∈ vs.tags := by
  unfold vsPushTag
  by_cases h : t ∈ vs.tags
  · rw [if_pos h]
    constructor
    · exact Or.inr
    · rintro (rfl | hs)
      · exact h
      · exact hs
  · rw [if_neg h]
    simp only [List.mem_append, List.mem_singleton]
    tauto

/-- Pushing a version does not change the tag list. -/
theorem vsPushVersion_tags (vs : VersionSet) (v0 : String) :
    (vsPushVersion vs v0).tags = vs.tags := by
  unfold vsPushVersion
  split <;> rfl

/-- Membership after pushing a version. -/
theorem vsPushVersion_versions_mem (vs : VersionSet) (v0 s : String) :
    s ∈ (vsPushVersion vs v0).versions ↔ s = v0 ∨ s ∈ vs.versions := by
  unfold vsPushVersion
  by_cases h : v0 ∈ vs.versions
  · rw [if_pos h]
    constructor
    · exact Or.inr
    · rintro (rfl | hs)
      · exact h
      · exact hs
  · rw [if_neg h]
    simp only [List.mem_append, List.mem_singleton]
    tauto

/-- Folding tag pushes does not change the version list. -/
theorem foldl_vsPushTag_versions (ts : List String) (vs : VersionSet) :
    (ts.foldl vsPushTag vs).versions = vs.versions := by
  induction ts generalizing vs with
  | nil => rfl
  | cons t ts ih => rw [List.foldl_cons, ih, vsPushTag_versions]

/-- Membership after folding tag pushes. -/
theorem foldl_vsPushTag_tags_mem (ts : List String) (vs : VersionSet)
    (s : String) :
    s ∈ (ts.foldl vsPushTag vs).tags ↔ s ∈ ts ∨ s ∈ vs.tags := by
  induction ts generalizing vs with
  | nil => simp
  | cons t ts ih =>
    rw [List.foldl_cons, ih, vsPushTag_tags_mem]
    simp only [List.mem_cons]
    tauto

/-- The tags contributed by one closure element. -/
theorem mem_tagsOfMatch (st : RepoState) (v0 : String) (s : String) :
    (s ∈ (match findV st.store v0 with
          | some v => v.tags
          | none => ([] : List String))) ↔
      ∃ w, findV st.store v0 = some w ∧ s ∈ w.tags := by
  cases hw : findV st.store v0 <;> simp [hw]

/-- Version membership after absorbing one closure. -/
theorem vsAddClosure_versions_mem (st : RepoState) (cl : List String)
    (vs : VersionSet) (s : String) :
    s ∈ (vsAddClosure st vs cl).versions ↔ s ∈ cl ∨ s ∈ vs.versions := by
  induction cl generalizing vs with
  | nil => simp [vsAddClosure]
  | cons v0 cl ih =>
    show s ∈ (vsAddClosure st
        ((match findV st.store v0 with
          | some v => v.tags
          | none => []).foldl vsPushTag (vsPushVersion vs v0)) cl).versions ↔ _
    rw [ih, foldl_vsPushTag_versions, vsPushVersion_versions_mem]
    simp only [List.mem_cons]
    tauto

/-- Tag membership after absorbing one closure: every tag of every closure
version is pushed. -/
theorem vsAddClosure_tags_mem (st : RepoState) (cl : List String)
    (vs : VersionSet) (s : String) :
    s ∈ (vsAddClosure st vs cl).tags ↔
      (∃ v0 ∈ cl, ∃ w, findV st.store v0 = some w ∧ s ∈ w.tags) ∨
        s ∈ vs.tags := by
  induction cl generalizing vs with
  | nil => simp [vsAddClosure]
  | cons v0 cl ih =>
    show s ∈ (vsAddClosure st
        ((match findV st.store v0 with
          | some v => v.tags
          | none => []).foldl vsPushTag (vsPushVersion vs v0)) cl).tags ↔ _
    rw [ih, foldl_vsPushTag_tags_mem, vsPushVersion_tags, mem_tagsOfMatch]
    simp only [List.mem_cons]
    constructor
    · rintro (h | (h | h))
      · obtain ⟨u, hu, hw⟩ := h
        exact Or.inl ⟨u, Or.inr hu, hw⟩
      · obtain ⟨w, hw, hs⟩ := h
        exact Or.inl ⟨v0, Or.inl rfl, w, hw, hs⟩
      · exact Or.inr h
    · rintro (⟨u, hu | hu, hw⟩ | h)
      · exact Or.inr (Or.inl (hu ▸ hw))
      · exact Or.inl ⟨u, hu, hw⟩
      · exact Or.inr (Or.inr h)

/-- Inversion of a successful `addVersions`: the result's versions are the
input's plus every member of every closure, and the result's tags are the
input's plus every tag of every closure member. -/
theorem addVersionsE_ok (fuel : Nat) (st : RepoState) (names : List String)
    (vs vs' : VersionSet) (h : addVersionsE fuel st vs names = .ok vs') :
    (∀ s, s ∈ vs'.versions ↔
       (∃ nm ∈ names, ∃ c, getClosureFuel st fuel nm = .ok c ∧ s ∈ c) ∨
         s ∈ vs.versions) ∧
    (∀ s, s ∈ vs'.tags ↔
       (∃ nm ∈ names, ∃ c, getClosureFuel st fuel nm = .ok c ∧
          ∃ v0 ∈ c, ∃ w, findV st.store v0 = some w ∧ s ∈ w.tags) ∨
         s ∈ vs.tags) := by
  induction names generalizing vs with
  | nil =>
    unfold addVersionsE at h
    cases h
    constructor <;> intro s <;> simp
  | cons nm names ih =>
    unfold addVersionsE at h
    rw [List.foldlM_cons] at h
    rw [except_bind_ok] at h
    obtain ⟨vs1, hvs1, h⟩ := h
    rw [except_bind_ok] at hvs1
    obtain ⟨c, hc, hpure⟩ := hvs1
    cases hpure
    obtain ⟨ihv, iht⟩ := ih (vsAddClosure st vs c) h
    constructor
    · intro s
      rw [ihv, vsAddClosure_versions_mem]
      simp only [List.mem_cons]
      constructor
      · rintro (⟨u, hu, c', hc', hs⟩ | hcl | hvs)
        · exact Or.inl ⟨u, Or.inr hu, c', hc', hs⟩
        · exact Or.inl ⟨nm, Or.inl rfl, c, hc, hcl⟩
        · exact Or.inr hvs
      · rintro (⟨u, hu | hu, c', hc', hs⟩ | hvs)
        · subst hu
          rw [hc] at hc'
          cases hc'
          exact Or.inr (Or.inl hs)
        · exact Or.inl ⟨u, hu, c', hc', hs⟩
        · exact Or.inr (Or.inr hvs)
    · intro s
      rw [iht, vsAddClosure_tags_mem]
      simp only [List.mem_cons]
      constructor
      · rintro (⟨u, hu, c', hc', hs⟩ | hcl | hvs)
        · exact Or.inl ⟨u, Or.inr hu, c', hc', hs⟩
        · exact Or.inl ⟨nm, Or.inl rfl, c, hc, hcl⟩
        · exact Or.inr hvs
      · rintro (⟨u, hu | hu, c', hc', hs⟩ | hvs)
        · subst hu
          rw [hc] at hc'
          cases hc'
          exact Or.inr (Or.inl hs)
        · exact Or.inl ⟨u, hu, c', hc', hs⟩
        · exact Or.inr (Or.inr hvs)

/-- Inversion of a successful `addTags`: the result's tags are the input's
plus, for each given tag that resolves, the tag itself and every tag of
every version in its owner's closure; the result's versions are the input's
plus the owners' closures. -/
theorem addTagsE_ok (fuel : Nat) (st : RepoState) (ts : List String)
    (vs vs' : VersionSet) (h : addTagsE fuel st vs ts = .ok vs') :
    (∀ s, s ∈ vs'.tags ↔
       (∃ t ∈ ts, ∃ v, getVersion st (.str t) = some v ∧
          (s = t ∨ ∃ c, getClosureFuel st fuel v.name = .ok c ∧
             ∃ v0 ∈ c, ∃ w, findV st.store v0 = some w ∧ s ∈ w.tags)) ∨
         s ∈ vs.tags) ∧
    (∀ s, s ∈ vs'.versions ↔
       (∃ t ∈ ts, ∃ v, getVersion st (.str t) = some v ∧
          ∃ c, getClosureFuel st fuel v.name = .ok c ∧ s ∈ c) ∨
         s ∈ vs.versions) := by
  induction ts generalizing vs with
  | nil =>
    unfold addTagsE at h
    cases h
    constructor <;> intro s <;> simp
  | cons t ts ih =>
    unfold addTagsE at h
    rw [List.foldlM_cons, except_bind_ok] at h
    obtain ⟨vs1, hvs1, h⟩ := h
    replace h : addTagsE fuel st vs1 ts = .ok vs' := h
    obtain ⟨iht, ihv⟩ := ih vs1 h
    cases hv : getVersion st (.str t) with
    | none =>
      rw [hv] at hvs1
      cases hvs1
      constructor
      · intro s
        rw [iht]
        simp only [List.mem_cons]
        constructor
        · rintro (⟨t', ht', rest⟩ | hmem)
          · exact Or.inl ⟨t', Or.inr ht', rest⟩
          · exact Or.inr hmem
        · rintro (⟨t', rfl | ht', v', hv', rest⟩ | hmem)
          · rw [hv] at hv'; cases hv'
          · exact Or.inl ⟨t', ht', v', hv', rest⟩
          · exact Or.inr hmem
      · intro s
        rw [ihv]
        simp only [List.mem_cons]
        constructor
        · rintro (⟨t', ht', rest⟩ | hmem)
          · exact Or.inl ⟨t', Or.inr ht', rest⟩
          · exact Or.inr hmem
        · rintro (⟨t', rfl | ht', v', hv', rest⟩ | hmem)
          · rw [hv] at hv'; cases hv'
          · exact Or.inl ⟨t', ht', v', hv', rest⟩
          · exact Or.inr hmem
    | some v =>
      rw [hv] at hvs1
      obtain ⟨av, at'⟩ := addVersionsE_ok fuel st [v.name] (vsPushTag vs t) vs1 hvs1
      constructor
      · intro s
        rw [iht, at', vsPushTag_tags_mem]
        simp only [List.mem_singleton, List.mem_cons, List.not_mem_nil, or_false,
          exists_eq_left]
        constructor
        · rintro (⟨t', ht', rest⟩ | (hclo | (hst | hmem)))
          · exact Or.inl ⟨t', Or.inr ht', rest⟩
          · exact Or.inl ⟨t, Or.inl rfl, v, hv, Or.inr hclo⟩
          · exact Or.inl ⟨t, Or.inl rfl, v, hv, Or.inl hst⟩
          · exact Or.inr hmem
        · rintro (⟨t', rfl | ht', v', hv', rest⟩ | hmem)
          · rw [hv] at hv'
            cases hv'
            rcases rest with hst | hclo
            · exact Or.inr (Or.inr (Or.inl hst))
            · exact Or.inr (Or.inl hclo)
          · exact Or.inl ⟨t', ht', v', hv', rest⟩
          · exact Or.inr (Or.inr (Or.inr hmem))
      · intro s
        rw [ihv, av, vsPushTag_versions]
        simp only [List.mem_singleton, List.mem_cons, List.not_mem_nil, or_false,
          exists_eq_left]
        constructor
        · rintro (⟨t', ht', rest⟩ | (hclo | hmem))
          · exact Or.inl ⟨t', Or.inr ht', rest⟩
          · exact Or.inl ⟨t, Or.inl rfl, v, hv, hclo⟩
          · exact Or.inr hmem
        · rintro (⟨t', rfl | ht', v', hv', rest⟩ | hmem)
          · rw [hv] at hv'
            cases hv'
            exact Or.inr (Or.inl rest)
          · exact Or.inl ⟨t', ht', v', hv', rest⟩
          · exact Or.inr (Or.inr hmem)

/-- Lemma: `addTags` with no tags returns the set unchanged. -/
theorem addTagsE_nil (fuel : Nat) (st : RepoState) (vs : VersionSet) :
    addTagsE fuel st vs [] = .ok vs := rfl

/-- Lemma: `addVersions` with no versions returns the set unchanged. -/
theorem addVersionsE_nil (fuel : Nat) (st : RepoState) (vs : VersionSet) :
    addVersionsE fuel st vs [] = .ok vs := rfl

/-- Filtering a list by non-membership in itself gives the empty list. -/
theorem filter_not_contains_self {α : Type} [BEq α] [LawfulBEq α]
    (l : List α) : l.filter (fun v => !(l.contains v)) = [] := by
  rw [List.filter_eq_nil_iff]
  intro x hx
  simp [hx]

/-- Lemma: `contains` is false exactly on non-members. -/
theorem contains_eq_false_iff {α : Type} [BEq α] [LawfulBEq α]
    (l : List α) (a : α) : l.contains a = false ↔ a ∉ l := by
  constructor
  · intro h hx
    simp [hx] at h
  · intro h
    cases hc : l.contains a with
    | false => rfl
    | true => exact absurd (List.mem_of_elem_eq_true hc) h

/-! ## Claim C5 -/

/-- Claim C5: when `include_tags`, `exclude_tags`, `keep_n_tagged` and
`keep_n_untagged` are all unset, every completed run computes the empty
plan: no tag and no version is selected for deletion, whatever the
repository contents. -/
theorem c5_no_options_empty_plan (cfg : Config) (dp : String → Option Int)
    (fuel : Nat) (st : RepoState) (p : Plan)
    (h1 : cfg.includeTags = none) (h2 : cfg.excludeTags = none)
    (h3 : cfg.keepNtagged = none) (h4 : cfg.keepNuntagged = none)
    (h : runPlan cfg dp fuel st = .ok p) :
    p.tagsDelete = [] ∧ p.versionsDelete = [] := by
  obtain ⟨hA, hB, hInc, hExc, hTR, hC, hD, hK2, hR2, hIR, hE, hK3, hF, hR3,
    hTD, hVD⟩ := runPlan_ok_spec cfg dp fuel st p h
  have hrm1 : p.remove1 = {} := by
    unfold includeStep at hInc
    rw [h1] at hInc
    injection hInc with hInc
    exact hInc.symm
  have hd : p.dTags = [] := by
    rw [hD]
    unfold dTagsOf
    rw [h3]
  have hrm2 : p.remove2 = {} := by
    rw [hrm1, hd, addTagsE_nil] at hR2
    injection hR2 with hR2
    exact hR2.symm
  have he : p.eVersions = p.imagesRest := by
    rw [hE]
    unfold eVersionsOf
    rw [h4]
  have hf : p.fVersions = [] := by
    rw [hF, he, filter_not_contains_self]
  have hrm3 : p.remove = {} := by
    rw [hrm2, hf] at hR3
    simp only [List.map_nil] at hR3
    rw [addVersionsE_nil] at hR3
    injection hR3 with hR3
    exact hR3.symm
  constructor
  · rw [hTD, hrm3]; rfl
  · rw [hVD, hrm3]; rfl

/-- Witness for C5: on a concrete repository with the all-unset
configuration the theorem applies and both deletion sets are empty. -/
theorem c5_no_options_empty_plan_witness :
    planUnsetLeak.tagsDelete = [] ∧ planUnsetLeak.versionsDelete = [] :=
  c5_no_options_empty_plan cfgUnset dateZero 10 stLeak planUnsetLeak
    rfl rfl rfl rfl (by rfl)

/-! ## Claim C10 -/

/-- Claim C10: `getTags()` with its default argument omits every tag whose
owning version is classified as an attestation, and the selection engine's
whole tag universe — the matched `A`/`B` sets, the sorted remainder and its
`C`/`D` split — is drawn from `getTags()`, so no attestation-owned tag is
ever matched or counted. -/
theorem c10_tag_universe :
    (∀ (st : RepoState) (t : String) (v : PackageVersion),
        t ∈ getTags st → getVersion st (.str t) = some v →
        v.vtype ≠ .attestation) ∧
    (∀ (cfg : Config) (dp : String → Option Int) (fuel : Nat)
        (st : RepoState) (p : Plan), runPlan cfg dp fuel st = .ok p →
        (∀ t ∈ p.aTags, t ∈ getTags st) ∧ (∀ t ∈ p.bTags, t ∈ getTags st) ∧
        (∀ t ∈ p.tagsRest, t ∈ getTags st) ∧
        (∀ t ∈ p.cTags, t ∈ getTags st) ∧
        (∀ t ∈ p.dTags, t ∈ getTags st)) := by
  constructor
  · intro st t v ht hv
    unfold getTags at ht
    rw [if_neg (by simp)] at ht
    have hp := List.of_mem_filter ht
    rw [hv] at hp
    simp only [PackageVersion.is_attestation, Bool.not_eq_true'] at hp
    intro hcontr
    rw [hcontr] at hp
    simp at hp
  · intro cfg dp fuel st p h
    obtain ⟨hA, hB, hInc, hExc, hTR, hC, hD, hK2, hR2, hIR, hE, hK3, hF, hR3,
      hTD, hVD⟩ := runPlan_ok_spec cfg dp fuel st p h
    have hrest : ∀ t ∈ p.tagsRest, t ∈ getTags st := by
      intro t ht
      rw [hTR] at ht
      unfold restTags at ht
      rw [mem_sortBy] at ht
      exact (List.mem_filter.mp ht).1
    refine ⟨?_, ?_, hrest, ?_, ?_⟩
    · intro t ht
      rw [hA] at ht
      unfold aTagsOf at ht
      cases hi : cfg.includeTags with
      | none => rw [hi] at ht; cases ht
      | some q =>
        rw [hi] at ht
        exact (List.mem_filter.mp ht).1
    · intro t ht
      rw [hB] at ht
      unfold bTagsOf at ht
      cases hi : cfg.excludeTags with
      | none => rw [hi] at ht; cases ht
      | some q =>
        rw [hi] at ht
        exact (List.mem_filter.mp ht).1
    · intro t ht
      rw [hC] at ht
      unfold cTagsOf at ht
      cases hn : cfg.keepNtagged with
      | none => rw [hn] at ht; exact hrest t ht
      | some n =>
        rw [hn] at ht
        exact hrest t (List.take_subset n p.tagsRest ht)
    · intro t ht
      rw [hD] at ht
      unfold dTagsOf at ht
      cases hn : cfg.keepNtagged with
      | none => rw [hn] at ht; cases ht
      | some n =>
        rw [hn] at ht
        exact hrest t (List.drop_subset n p.tagsRest ht)

/-- Witness for C10: on the concrete forest, the tag `v1` is in the tag
universe and its owner is not an attestation, and the engine's `A` set on
the same forest is inside the universe at the concrete tag `v1`. -/
theorem c10_tag_universe_witness :
    wX.vtype ≠ PackageVersionType.attestation ∧ "v1" ∈ getTags stLeak :=
  have hmem : "v1" ∈ getTags stLeak := by decide
  have hmem2 : "v1" ∈ planLeak.aTags := by decide
  have := ((c10_tag_universe.2 cfgLeak dateZero 10 stLeak planLeak
    (by rfl)).1) "v1" hmem2
  ⟨c10_tag_universe.1 stLeak "v1" wX hmem rfl, this⟩

/-! ## Claim C6, amended -/

/-- Claim C6 as amended: `tagsRest` is the list of all tags (of the
engine's tag universe) in neither `remove.tags` nor `keep.tags` after the
include/exclude steps — sets that contain, beyond `A_tag` and `B_tag`,
every tag of every version in the matched tags' owners' closures — sorted
descending by the owner's parsed `updated_at` (pairs whose timestamps both
parse are in descending order; the epoch string substitutes only for a tag
that resolves to no version, inside `tagSortVal`); `C_tag` is the first
`keep_n_tagged` entries of `tagsRest` (all of it when unset) and `D_tag`
the remainder (empty when unset). -/
theorem c6_amended_tags_rest (cfg : Config) (dp : String → Option Int)
    (fuel : Nat) (st : RepoState) (p : Plan)
    (h : runPlan cfg dp fuel st = .ok p) :
    (∀ t, t ∈ p.tagsRest ↔
       t ∈ getTags st ∧ t ∉ p.remove1.tags ∧ t ∉ p.keep1.tags) ∧
    p.tagsRest.Pairwise
      (fun a b => ∀ x y, tagSortVal dp st a = some x →
        tagSortVal dp st b = some y → y ≤ x) ∧
    (∀ n, cfg.keepNtagged = some n →
       p.cTags = p.tagsRest.take n ∧ p.dTags = p.tagsRest.drop n) ∧
    (cfg.keepNtagged = none → p.cTags = p.tagsRest ∧ p.dTags = []) := by
  obtain ⟨hA, hB, hInc, hExc, hTR, hC, hD, hK2, hR2, hIR, hE, hK3, hF, hR3,
    hTD, hVD⟩ := runPlan_ok_spec cfg dp fuel st p h
  refine ⟨?_, ?_, ?_, ?_⟩
  · intro t
    rw [hTR]
    unfold restTags
    rw [mem_sortBy, List.mem_filter]
    simp only [Bool.and_eq_true, Bool.not_eq_true', contains_eq_false_iff]
    try tauto
  · rw [hTR]
    unfold restTags
    have hpw := pairwise_sortBy (tagCmp dp st)
      ((getTags st).filter
        (fun t => !(p.remove1.tags.contains t) && !(p.keep1.tags.contains t)))
      (tagCmp_trans dp st) (tagCmp_asym dp st)
    refine hpw.imp ?_
    intro a b hab x y hx hy
    by_contra hxy
    apply hab
    unfold tagCmp
    rw [hy, hx]
    exact Batteries.compareOfLessAndEq_eq_lt.mpr (lt_of_not_le hxy)
  · intro n hn
    rw [hC, hD]
    unfold cTagsOf dTagsOf
    rw [hn]
    exact ⟨rfl, rfl⟩
  · intro hn
    rw [hC, hD]
    unfold cTagsOf dTagsOf
    rw [hn]
    exact ⟨rfl, rfl⟩

/-- Witness for C6 amended: on the concrete leak forest the theorem
applies; the tag `w` is in the universe but absent from `tagsRest` because
it is in the closure-augmented removal set, and with `keep_n_tagged` unset
`C = tagsRest` and `D = ∅`. -/
theorem c6_amended_tags_rest_witness :
    ("w" ∈ getTags stLeak ∧ "w" ∈ planLeak.remove1.tags) ∧
    planLeak.cTags = planLeak.tagsRest ∧ planLeak.dTags = [] := by
  have hthm := c6_amended_tags_rest cfgLeak dateZero 10 stLeak planLeak (by rfl)
  refine ⟨⟨by decide, by decide⟩, hthm.2.2.2 rfl⟩

/-! ## Claim C2, amended -/

/-- Claim C2 as amended: the final set of tags to delete is
`remove.tags ∖ keep.tags`, where `remove.tags` accumulates `A_tag`,
`D_tag`, every tag of every version in the closures of those tags' owners,
and every tag of every version in the closures of the deleted untagged
roots `F`; in particular a tag merely owned by a version inside a deleted
closure does appear in `tags_delete` unless it also belongs to the kept
sets. -/
theorem c2_amended_tags_delete (cfg : Config) (dp : String → Option Int)
    (fuel : Nat) (st : RepoState) (p : Plan)
    (h : runPlan cfg dp fuel st = .ok p) :
    (∀ t, t ∈ p.tagsDelete ↔ t ∈ p.remove.tags ∧ t ∉ p.keep.tags) ∧
    (∀ t, t ∈ p.remove.tags ↔
       ((∃ t' ∈ p.aTags ++ p.dTags, ∃ v, getVersion st (.str t') = some v ∧
           (t = t' ∨ ∃ c, getClosureFuel st fuel v.name = .ok c ∧
              ∃ v0 ∈ c, ∃ w, findV st.store v0 = some w ∧ t ∈ w.tags)) ∨
        (∃ nm ∈ p.fVersions.map (·.name), ∃ c,
           getClosureFuel st fuel nm = .ok c ∧
             ∃ v0 ∈ c, ∃ w, findV st.store v0 = some w ∧ t ∈ w.tags))) := by
  obtain ⟨hA, hB, hInc, hExc, hTR, hC, hD, hK2, hR2, hIR, hE, hK3, hF, hR3,
    hTD, hVD⟩ := runPlan_ok_spec cfg dp fuel st p h
  constructor
  · intro t
    rw [hTD, List.mem_filter]
    simp only [Bool.not_eq_true', contains_eq_false_iff]
  · intro t
    obtain ⟨-, hRemTags⟩ :=
      addVersionsE_ok fuel st (p.fVersions.map (·.name)) p.remove2 p.remove hR3
    obtain ⟨hR2Tags, -⟩ := addTagsE_ok fuel st p.dTags p.remove1 p.remove2 hR2
    have hR1Tags : ∀ s, s ∈ p.remove1.tags ↔
        (∃ t' ∈ p.aTags, ∃ v, getVersion st (.str t') = some v ∧
          (s = t' ∨ ∃ c, getClosureFuel st fuel v.name = .ok c ∧
             ∃ v0 ∈ c, ∃ w, findV st.store v0 = some w ∧ s ∈ w.tags)) := by
      cases hi : cfg.includeTags with
      | none =>
        unfold includeStep at hInc
        rw [hi] at hInc
        injection hInc with hInc
        rw [← hInc, hA]
        unfold aTagsOf
        rw [hi]
        intro s
        simp
      | some q =>
        unfold includeStep at hInc
        rw [hi] at hInc
        obtain ⟨ht1, -⟩ :=
          addTagsE_ok fuel st (matchItems q (getTags st)) {} p.remove1 hInc
        intro s
        rw [ht1 s, hA]
        unfold aTagsOf
        rw [hi]
        simp
    rw [hRemTags t, hR2Tags t, hR1Tags t]
    simp only [List.mem_append]
    constructor
    · rintro (hf | (hd | ha))
      · exact Or.inr hf
      · obtain ⟨t', ht', rest⟩ := hd
        exact Or.inl ⟨t', Or.inr ht', rest⟩
      · obtain ⟨t', ht', rest⟩ := ha
        exact Or.inl ⟨t', Or.inl ht', rest⟩
    · rintro (⟨t', ht' | ht', rest⟩ | hf)
      · exact Or.inr (Or.inr ⟨t', ht', rest⟩)
      · exact Or.inr (Or.inl ⟨t', ht', rest⟩)
      · exact Or.inl hf

/-- Witness for C2 amended: on the concrete leak forest the theorem
applies at the concrete tag `w` (owned by a version inside the deleted
closure), which is in the final deletion set. -/
theorem c2_amended_tags_delete_witness :
    "w" ∈ planLeak.remove.tags ∧ "w" ∉ planLeak.keep.tags :=
  ((c2_amended_tags_delete cfgLeak dateZero 10 stLeak planLeak
      (by rfl)).1 "w").mp (by decide)

/-! ## Map and set deletion lemmas -/

/-- Deleting a key removes it from the map. -/
theorem mapGet_mapDelete_same (m : List (VKey × String)) (k : VKey) :
    mapGet (mapDelete m k) k = none := by
  unfold mapGet mapDelete
  have : (m.filter (fun e => !(e.1 == k))).find? (fun e => e.1 == k) = none := by
    rw [List.find?_eq_none]
    intro e he
    have := List.of_mem_filter he
    simp only [Bool.not_eq_true'] at this
    simp [this]
  rw [this]
  rfl

/-- Deleting any key preserves the absence of another. -/
theorem mapGet_none_mapDelete (m : List (VKey × String)) (k k' : VKey)
    (h : mapGet m k = none) : mapGet (mapDelete m k') k = none := by
  unfold mapGet mapDelete at *
  rw [Option.map_eq_none'] at h ⊢
  rw [List.find?_eq_none] at h ⊢
  intro e he
  exact h e (List.mem_of_mem_filter he)

/-- A fold of key deletions preserves the absence of a key. -/
theorem foldl_mapDelete_pres_none (l : List String)
    (m : List (VKey × String)) (k : VKey) (h : mapGet m k = none) :
    mapGet (l.foldl (fun m t => mapDelete m (.str t)) m) k = none := by
  induction l generalizing m with
  | nil => exact h
  | cons t l ih =>
    rw [List.foldl_cons]
    exact ih _ (mapGet_none_mapDelete m k (.str t) h)

/-- A fold of key deletions removes every folded key. -/
theorem foldl_mapDelete_mem_none (l : List String)
    (m : List (VKey × String)) (t : String) (ht : t ∈ l) :
    mapGet (l.foldl (fun m t => mapDelete m (.str t)) m) (.str t) = none := by
  induction l generalizing m with
  | nil => cases ht
  | cons t0 l ih =>
    rw [List.foldl_cons]
    rcases List.mem_cons.mp ht with rfl | ht'
    · exact foldl_mapDelete_pres_none l _ _ (mapGet_mapDelete_same m (.str t))
    · exact ih _ ht' 

/-- Deleting an element removes it from the set. -/
theorem setDelete_not_mem (s : List String) (t : String) :
    t ∉ setDelete s t := by
  intro h
  have := List.of_mem_filter h
  simp at this

/-- Deleting any element preserves the absence of another. -/
theorem setDelete_pres_not_mem (s : List String) (t u : String)
    (h : t ∉ s) : t ∉ setDelete s u :=
  fun hc => h (List.mem_of_mem_filter hc)

/-- A fold of set deletions removes every folded element. -/
theorem foldl_setDelete_mem (l : List String) (s : List String) (t : String)
    (ht : t ∈ l) : t ∉ l.foldl (fun s t => setDelete s t) s := by
  induction l generalizing s with
  | nil => cases ht
  | cons t0 l ih =>
    rw [List.foldl_cons]
    rcases List.mem_cons.mp ht with rfl | ht'
    · -- t deleted at the head step, then preserved absent
      have : ∀ (l' : List String) (s' : List String), t ∉ s' →
          t ∉ l'.foldl (fun s t => setDelete s t) s' := by
        intro l'
        induction l' with
        | nil => intro s' h; exact h
        | cons u l' ih' =>
          intro s' h
          rw [List.foldl_cons]
          exact ih' _ (setDelete_pres_not_mem s' t u h)
      exact this l _ (setDelete_not_mem s t)
    · exact ih _ ht' 

/-! ## scanRoots invariants -/

/-- A fold over a name-preserving step preserves the name list. -/
theorem foldlM_store_names {β : Type}
    (f : Store → β → Except RunErr Store)
    (hf : ∀ s k s', f s k = .ok s' → s'.map (·.name) = s.map (·.name)) :
    ∀ (cs : List β) (s0 s' : Store), cs.foldlM f s0 = .ok s' →
      s'.map (·.name) = s0.map (·.name) := by
  intro cs
  induction cs with
  | nil => intro s0 s' h; cases h; rfl
  | cons c cs ih =>
    intro s0 s' h
    rw [List.foldlM_cons, except_bind_ok] at h
    obtain ⟨s1, h1, h2⟩ := h
    rw [ih s1 s' h2, hf s0 c s1 h1]

/-- Lemma: `updateV` with a name-preserving update preserves the name list. -/
theorem updateV_names (st : Store) (n : String)
    (f : PackageVersion → PackageVersion)
    (hf : ∀ v, (f v).name = v.name) :
    (updateV st n f).map (·.name) = st.map (·.name) := by
  unfold updateV
  rw [List.map_map]
  apply List.map_congr_left
  intro v hv
  show (if (v.name == n) = true then f v else v).name = v.name
  split <;> simp [hf]

/-- Lemma: `linkVersions` preserves the name list. -/
theorem linkVersions_names (st : Store) (p c : String) (st' : Store)
    (h : linkVersions st p c = .ok st') :
    st'.map (·.name) = st.map (·.name) := by
  by_cases hpc : p = c
  · simp [linkVersions, hpc] at h
  · cases hc : findV st c with
    | none =>
      simp [linkVersions, hpc, hc] at h
      rw [← h]
    | some cv =>
      cases hcp : cv.parent with
      | some q =>
        by_cases hq : q = p
        · simp [linkVersions, hpc, hc, hcp, hq] at h
          rw [← h]
        · simp [linkVersions, hpc, hc, hcp, hq] at h
      | none =>
        simp [linkVersions, hpc, hc, hcp] at h
        have hf2 : ∀ v : PackageVersion,
            ((fun v : PackageVersion =>
              if c ∈ v.children then v
              else { v with children := v.children ++ [c] }) v).name =
              v.name := by
          intro v
          by_cases hm : c ∈ v.children <;> simp [hm]
        have hf1 : ∀ v : PackageVersion,
            ((fun v : PackageVersion => { v with parent := some p }) v).name =
              v.name := fun v => rfl
        rw [← h, updateV_names _ _ _ hf2, updateV_names _ _ _ hf1]

/-- Lemma: `linkAll` preserves the name list. -/
theorem linkAll_names (st : Store) (pairs : List (String × String))
    (st' : Store) (linked : List String)
    (h : linkAll st pairs = .ok (st', linked)) :
    st'.map (·.name) = st.map (·.name) := by
  unfold linkAll at h
  suffices hgen : ∀ (ps : List (String × String)) (acc : Store × List String)
      (out : Store × List String),
      ps.foldlM (fun (acc : Store × List String) pc => do
        let st' ← linkVersions acc.1 pc.1 pc.2
        pure (st', acc.2 ++ [pc.2])) acc = .ok out →
      out.1.map (·.name) = acc.1.map (·.name) by
    exact hgen pairs (st, []) (st', linked) h
  intro ps
  induction ps with
  | nil => intro acc out h; cases h; rfl
  | cons pc ps ih =>
    intro acc out h
    rw [List.foldlM_cons, except_bind_ok] at h
    obtain ⟨acc1, h1, h2⟩ := h
    rw [except_bind_ok] at h1
    obtain ⟨s1, hl, hpure⟩ := h1
    cases hpure
    rw [ih _ _ h2]
    exact linkVersions_names acc.1 pc.1 pc.2 s1 hl

/-- The type-setting `visit` preserves the name list. -/
theorem setTypesFuel_names :
    ∀ (n : Nat) (st : Store) (k : String) (st' : Store),
      setTypesFuel n st k = .ok st' → st'.map (·.name) = st.map (·.name) := by
  intro n
  induction n with
  | zero => intro st k st' h; cases h
  | succ n ih =>
    intro st k st' h
    rw [setTypesFuel] at h
    cases hf : findV st k with
    | none => rw [hf] at h; cases h; rfl
    | some v =>
      rw [hf] at h
      have := foldlM_store_names (fun s c => setTypesFuel n s c)
        (fun s k' s' hh => ih s k' s' hh) v.children _ _ h
      rw [this, updateV_names]
      intro u; rfl

/-- The root loop of type-setting preserves the name list. -/
theorem setTypesRoots_names (fuel : Nat) :
    ∀ (rs : List String) (st : Store) (st' : Store),
      setTypesRoots fuel st rs = .ok st' →
      st'.map (·.name) = st.map (·.name) := by
  intro rs
  induction rs with
  | nil => intro st st' h; cases h; rfl
  | cons r rs ih =>
    intro st st' h
    rw [setTypesRoots, except_bind_ok] at h
    obtain ⟨s1, h1, h2⟩ := h
    rw [ih s1 st' h2]
    exact setTypesFuel_names fuel st r s1 h1

/-- What a successful `scanRoots` preserves: the index, tag, and digest
collections are untouched; the store's name list is unchanged; and the new
root list only holds names of store members. -/
theorem scanRoots_inv (fuel : Nat) (st st' : RepoState)
    (h : scanRoots fuel st = .ok st') :
    st'.index = st.index ∧ st'.tags = st.tags ∧ st'.digests = st.digests ∧
    st'.store.map (·.name) = st.store.map (·.name) ∧
    (∀ r ∈ st'.roots, r ∈ st.store.map (·.name)) := by
  unfold scanRoots at h
  rw [except_bind_ok] at h
  obtain ⟨⟨s2, l1⟩, h1, h⟩ := h
  rw [except_bind_ok] at h
  obtain ⟨⟨s3, l2⟩, h2, h⟩ := h
  rw [except_bind_ok] at h
  obtain ⟨⟨s4, l3⟩, h3, h⟩ := h
  rw [except_bind_ok] at h
  obtain ⟨s5, h4, h⟩ := h
  cases h
  have hn1 :
      (st.store.map
        (fun v =>
          { v with
            children := ([] : List String), parent := (none : Option String),
            vtype := PackageVersionType.unknown })).map (·.name) =
        st.store.map (·.name) := by
    rw [List.map_map]
    rfl
  have hn2 := linkAll_names _ _ _ _ h1
  have hn3 := linkAll_names _ _ _ _ h2
  have hn4 := linkAll_names _ _ _ _ h3
  have hn5 := setTypesRoots_names fuel _ _ _ h4
  refine ⟨rfl, rfl, rfl, ?_, ?_⟩
  · rw [hn5, hn4, hn3, hn2, hn1]
  · intro r hr
    have hr1 := List.mem_of_mem_filter hr
    have hr2 := List.mem_of_mem_filter hr1
    have hr3 := List.mem_of_mem_filter hr2
    rw [← hn1]
    exact hr3

/-! ## Claim C9 -/

/-- Claim C9: with the dry-run switch set, no external mutation is ever
performed — `deleteVersion` issues no REST delete and `deleteTag` performs
no manifest PUT, no re-listing and no deletion of the intermediate version
(the external-effect trace of both operations is empty) — while the
in-memory maps are still updated as if the deletion had happened: the
version's name, id and tag keys leave the index, its digest and tags leave
their sets, the object leaves the store, the rebuilt roots exclude it; and
the deleted tag leaves the tag set, the index, and the owner's tag list. -/
theorem c9_dry_run :
    (∀ (fuel : Nat) (st : RepoState) (key : VKey) (st' : RepoState)
        (effs : List Effect),
       deleteVersionE true fuel st key = .ok (st', effs) →
       effs = [] ∧
       ∀ v, getVersion st key = some v →
         mapGet st'.index (.str v.name) = none ∧
         mapGet st'.index (.num v.id) = none ∧
         v.name ∉ st'.digests ∧
         (∀ t ∈ v.tags, t ∉ st'.tags ∧ mapGet st'.index (.str t) = none) ∧
         (∀ u ∈ st'.store, u.name ≠ v.name) ∧
         (∀ r ∈ st'.roots, r ≠ v.name)) ∧
    (∀ (fuel : Nat) (refetch : List PackageVersion) (st : RepoState)
        (tag : String) (st' : RepoState) (effs : List Effect),
       deleteTagE true fuel refetch st tag = .ok (st', effs) →
       effs = [] ∧ tag ∉ st'.tags ∧ mapGet st'.index (.str tag) = none ∧
       ∀ v, getVersion st (.str tag) = some v →
         ∀ u ∈ st'.store, u.name = v.name → tag ∉ u.tags) := by
  constructor
  · intro fuel st key st' effs h
    unfold deleteVersionE at h
    cases hv : getVersion st key with
    | none => rw [hv] at h; cases h
    | some version =>
      rw [hv] at h
      rw [except_bind_ok] at h
      obtain ⟨st2, hscan, hpure⟩ := h
      injection hpure with hpair
      injection hpair with hst heff
      subst hst
      subst heff
      obtain ⟨hidx, htags, hdig, hnames, hroots⟩ :=
        scanRoots_inv fuel _ _ hscan
      have hidx' : st2.index =
          mapDelete
            (version.tags.foldl (fun m t => mapDelete m (.str t))
              (mapDelete st.index (.str version.name)))
            (.num version.id) := hidx
      have htags' : st2.tags =
          version.tags.foldl (fun s t => setDelete s t) st.tags := htags
      have hdig' : st2.digests = setDelete st.digests version.name := hdig
      have hnames' : st2.store.map (·.name) =
          (st.store.filter (fun u => !(u.name == version.name))).map
            (·.name) := hnames
      have hroots' : ∀ r ∈ st2.roots,
          r ∈ (st.store.filter (fun u => !(u.name == version.name))).map
            (·.name) := hroots
      refine ⟨rfl, ?_⟩
      intro v hv2
      injection hv2 with hv2
      subst hv2
      have hfiltername : ∀ s,
          s ∈ (st.store.filter
            (fun u => !(u.name == version.name))).map (·.name) →
          s ≠ version.name := by
        intro s hs
        obtain ⟨w, hw, hwname⟩ := List.mem_map.mp hs
        have hpred := List.of_mem_filter hw
        simp only [Bool.not_eq_true'] at hpred
        intro hcontr
        rw [hwname, hcontr] at hpred
        simp at hpred
      refine ⟨?_, ?_, ?_, ?_, ?_, ?_⟩
      · rw [hidx']
        exact mapGet_none_mapDelete _ _ _
          (foldl_mapDelete_pres_none _ _ _ (mapGet_mapDelete_same _ _))
      · rw [hidx']
        exact mapGet_mapDelete_same _ _
      · rw [hdig']
        exact setDelete_not_mem _ _
      · intro t ht
        constructor
        · rw [htags']
          exact foldl_setDelete_mem _ _ _ ht
        · rw [hidx']
          exact mapGet_none_mapDelete _ _ _ (foldl_mapDelete_mem_none _ _ _ ht)
      · intro u hu
        have hm : u.name ∈ st2.store.map (·.name) := List.mem_map_of_mem _ hu
        rw [hnames'] at hm
        exact hfiltername u.name hm
      · intro r hr
        exact hfiltername r (hroots' r hr)
  · intro fuel refetch st tag st' effs h
    unfold deleteTagE at h
    cases hv : getVersion st (.str tag) with
    | none => rw [hv] at h; cases h
    | some version =>
      rw [hv] at h
      simp only [Bool.true_eq, eq_self_iff_true, if_true] at h
      injection h with hpair
      injection hpair with hst heff
      subst hst
      subst heff
      refine ⟨rfl, ?_, ?_, ?_⟩
      · exact setDelete_not_mem _ _
      · exact mapGet_mapDelete_same _ _
      · intro v hv2 u hu hname
        injection hv2 with hv2
        subst hv2
        unfold updateV at hu
        obtain ⟨w, hw, hwu⟩ := List.mem_map.mp hu
        by_cases hwn : (w.name == version.name) = true
        · rw [if_pos hwn] at hwu
          rw [← hwu]
          intro hc
          have := List.of_mem_filter hc
          simp at this
        · rw [if_neg hwn] at hwu
          rw [← hwu] at hname
          rw [hname] at hwn
          simp at hwn

/-- Witness for C9: on the concrete forest, the dry-run deletion of the
child version and the dry-run deletion of the tag `v1` both produce an
empty effect trace while updating the in-memory state. -/
theorem c9_dry_run_witness :
    dvLeak.2 = [] ∧ "w" ∉ dvLeak.1.tags ∧
    dtLeak.2 = [] ∧ "v1" ∉ dtLeak.1.tags :=
  have hdv := c9_dry_run.1 10 stLeak (.str "sha256:c") dvLeak.1 dvLeak.2 (by rfl)
  have hdt := c9_dry_run.2 10 [] stLeak "v1" dtLeak.1 dtLeak.2 (by rfl)
  ⟨hdv.1, ((hdv.2 wC rfl).2.2.2.1 "w" (by decide)).1, hdt.1, hdt.2.1⟩

end Cleanup
